import Mathlib

/-!
Verification development for the REP codec of FreeArc
(`src/Compression/REP/rep.cpp`).

The definitions below are a shallow embedding of `rep_compress` and
`rep_decompress`.  Bytes are modelled as `Nat` (the code only copies and
compares them; the rolling hash wraps modulo `2 ^ 32`, which is written out
explicitly).  Buffers (`buf`, `hasharr`, the decoder ring) are total
functions `Nat → Nat`; positions are absolute indices.  The read callback is
modelled as reading from an input list `X`: a request for `req` bytes
returns `min req remaining` bytes, and `0` signals EOF, exactly the callback
contract of the spec.  Allocation always succeeds in the model, so the
decoder uses a single output segment of size `BlockSize` (`data0_size =
BlockSize`, `block0` never flips).

Loops whose progress depends on data values are written with an explicit
fuel argument; fuel is chosen large enough that it is never exhausted on the
executions the theorems talk about (each compressor cycle with a non-empty
read consumes at least one input byte, so `X.length + 2` cycles suffice; the
skip loop advances by `k ≥ 1` per step towards the next multiple of `L`, so
`L` iterations suffice).

In addition to the byte stream `out` (which mirrors every `Put32`/`FWRITE`
of the source), the encoder state carries ghost instrumentation that does
not influence the computation: `mtrace` records every emitted match together
with the scan position `i`, the candidate `m`, `Base+Size` and `last_match`
at emission time; `hwr` records every write to `hasharr` together with the
scan position and checksum; `blocks` records the staging arrays of every
emitted non-terminal block.
-/

/-- `power` of rep.cpp: `for (result=1; n != 0; result *= base, n--);` on a
32-bit int, i.e. each multiplication wraps modulo `2 ^ 32`. -/
def power (base : Nat) : Nat → Nat
  | 0 => 1
  | n + 1 => power base n * base % 2 ^ 32

/-- Fuelled loop of `sqrtb`; the fuel only serves to make the recursion
structural (each pass divides `n` by `base * base ≥ 2`, so fuel `n` is
always enough). -/
def sqrtbLoop (base : Nat) : Nat → Nat → Nat
  | 0, _ => 1
  | fuel + 1, n =>
      if n / (base * base) = 0 then 1
      else base * sqrtbLoop base fuel (n / (base * base))

/-- `sqrtb` of rep.cpp: largest power of `base` not exceeding `sqrt n`,
computed by `for (result=1; (n/=base*base) != 0; result *= base);`.
The source only calls it with `base = 2`; for `base ≤ 1` the C loop would
not terminate, so that degenerate case is mapped to `1` here. -/
def sqrtb (n base : Nat) : Nat :=
  if base * base ≤ 1 then 1 else sqrtbLoop base n n

/-- Fuelled loop computing the smallest power of `base` that is `≥ n`,
starting from accumulator `acc` (fuel `n` suffices since `2 ^ n ≥ n`). -/
def rupLoop (base n : Nat) : Nat → Nat → Nat
  | 0, acc => acc
  | fuel + 1, acc => if n ≤ acc then acc else rupLoop base n fuel (acc * base)

/-- Modelled from the spec: `roundup_to_power_of n 2` of Compression.h
(not present under src/) rounds `n` up to a power of two
("L = round-up to power of two of S/2", spec section 3). -/
def roundup_to_power_of (n base : Nat) : Nat := rupLoop base n n 1

/-- `PRIME` of rep.cpp. -/
def PRIME : Nat := 153191

/-- `mb` of Compression.h, modelled from the spec (`8 MiB`): one mebibyte. -/
def mb : Nat := 1048576

/-- `MAX_READ` of rep.cpp: maximal number of bytes read per cycle. -/
def MAX_READ : Nat := 8 * mb

/-- `update_hash(sub,add)` of rep.cpp:
`hash = hash*PRIME + add - sub*cPOWER_PRIME_L` on a 32-bit int.  The
subtraction is expressed with an explicit additive complement so the whole
computation stays in `Nat` and agrees with wrap-around modulo `2 ^ 32`. -/
def update_hash (cPL hash sub add : Nat) : Nat :=
  (hash * PRIME + add + (2 ^ 32 - sub * cPL % 2 ^ 32)) % 2 ^ 32

/-- `chksum` of rep.cpp: `(hash>>28)&k1`. -/
def chksum (k1 hash : Nat) : Nat := Nat.land (hash >>> 28) k1

/-- `CalcHashSize` of rep.cpp. -/
def CalcHashSize (HashBits BlockSize k : Nat) : Nat :=
  if 0 < HashBits then 2 ^ HashBits
  else roundup_to_power_of (BlockSize / 3 * 2) 2 / max k 16

/-- `find_match_start` of rep.cpp: walk `p`/`q` backwards while the bytes
before them agree and `q` stays above `low`; returns the final `q`
(structural recursion on `q`). -/
def find_match_start (buf : Nat → Nat) (p : Nat) : Nat → Nat → Nat
  | 0, _ => 0
  | q + 1, low =>
      if low < q + 1 then
        if buf (p - 1) = buf q then find_match_start buf (p - 1) q low
        else q + 1
      else q + 1

/-- The loop of `find_match_end`, structural on the remaining distance
`high - q`. -/
def find_match_end_loop (buf : Nat → Nat) : Nat → Nat → Nat → Nat
  | _, q, 0 => q
  | p, q, r + 1 =>
      if buf p = buf q then find_match_end_loop buf (p + 1) (q + 1) r
      else q

/-- `find_match_end` of rep.cpp: walk `p`/`q` forwards while the bytes at
them agree and `q` stays below `high`; returns the final `q`. -/
def find_match_end (buf : Nat → Nat) (p q high : Nat) : Nat :=
  find_match_end_loop buf p q (high - q)

/-- `memcpy_lz_match` of rep.cpp: strictly ascending byte-by-byte copy of
`len` bytes from `q` to `p`, so that bytes written earlier can serve as
sources for later ones. -/
def memcpy_lz_match (mem : Nat → Nat) (p q : Nat) : Nat → (Nat → Nat)
  | 0 => mem
  | len + 1 =>
      memcpy_lz_match (fun t => if t = p then mem q else mem t) (p + 1) (q + 1) len

/-- Little-endian serialization of a 32-bit word (`Put32` / raw `int32`
store on a little-endian host). -/
def le32 (x : Nat) : List Nat :=
  [x % 256, x / 2 ^ 8 % 256, x / 2 ^ 16 % 256, x / 2 ^ 24 % 256]

/-- The bytes `buf[off .. off+len)` (`FWRITE (buf+off, len)`). -/
def bufSlice (buf : Nat → Nat) (off len : Nat) : List Nat :=
  (List.range len).map (fun t => buf (off + t))

/-- The literal runs of one block: `while (!dataOffsets.eof()) FWRITE (buf +
dataOffsets.get32(), datalens.get32());`. -/
def literalBytes (buf : Nat → Nat) : List Nat → List Nat → List Nat
  | [], _ => []
  | _ :: _, [] => []
  | o :: os, d :: ds => bufSlice buf o d ++ literalBytes buf os ds

/-- Parameters of `rep_compress` (the C signature; `MinCompression` is
consulted nowhere in the observed code). -/
structure RepParams where
  BlockSize : Nat
  MinCompression : Nat
  MinMatchLen : Nat
  Barrier : Nat
  SmallestLen : Nat
  HashBits : Nat
  Amplifier : Nat
  deriving Repr, DecidableEq

/-- The parameter clamp executed at the entry of `rep_compress`:
`if (SmallestLen>MinMatchLen)  SmallestLen=MinMatchLen;`. -/
def clampP (P : RepParams) : RepParams :=
  if P.MinMatchLen < P.SmallestLen then { P with SmallestLen := P.MinMatchLen }
  else P

/-- `L = roundup_to_power_of (SmallestLen/2, 2)` (computed from the
already-clamped parameters). -/
def repL (P : RepParams) : Nat := roundup_to_power_of (P.SmallestLen / 2) 2

/-- `k = sqrtb(L*2)`. -/
def repK (P : RepParams) : Nat := sqrtb (repL P * 2) 2

/-- `test = mymin(k*Amplifier,L)`. -/
def repTest (P : RepParams) : Nat := min (repK P * P.Amplifier) (repL P)

/-- `cPOWER_PRIME_L = power(PRIME,L)`. -/
def repCPL (P : RepParams) : Nat := power PRIME (repL P)

/-- `HashSize` as computed on the first cycle. -/
def repHashSize (P : RepParams) : Nat :=
  CalcHashSize P.HashBits P.BlockSize (repK P)

/-- `HashMask = HashSize-1`. -/
def repHashMask (P : RepParams) : Nat := repHashSize P - 1

/-- Ghost record of one emitted match: scan position `i`, candidate `m`,
`bs = Base+Size`, `lm = last_match` before the emission, the extension
bounds `s = start` and `e = end`, and the stored `off`/`len` fields. -/
structure MatchEv where
  i : Nat
  m : Nat
  bs : Nat
  lm : Nat
  s : Nat
  e : Nat
  off : Nat
  len : Nat
  deriving Repr, DecidableEq

/-- Ghost record of one write to `hasharr`: the scan position and the
checksum stored in the low bits. -/
structure HashWr where
  i : Nat
  chk : Nat
  deriving Repr, DecidableEq

/-- Ghost record of one emitted non-terminal block: `last_match` at the
start of the cycle and the four staging arrays as emitted. -/
structure BlockRec where
  lm0 : Nat
  lens : List Nat
  offsets : List Nat
  datalens : List Nat
  dataOffsets : List Nat
  deriving Repr, DecidableEq

/-- Encoder state: the working buffer, the hash table, the rolling hash, the
three cursors, the per-block staging arrays and literal counter, the output
byte stream, and the ghost traces. -/
structure EncSt where
  buf : Nat → Nat
  hasharr : Nat → Nat
  hash : Nat
  Base : Nat
  last_i : Nat
  last_match : Nat
  lens : List Nat
  offsets : List Nat
  datalens : List Nat
  dataOffsets : List Nat
  literals : Nat
  out : List Nat
  mtrace : List MatchEv
  hwr : List HashWr
  blocks : List BlockRec

/-- Initial encoder state (`hasharr` zeroed by `memset`). -/
def encInit : EncSt :=
  { buf := fun _ => 0, hasharr := fun _ => 0, hash := 0, Base := 0,
    last_i := 0, last_match := 0, lens := [], offsets := [], datalens := [],
    dataOffsets := [], literals := 0, out := [], mtrace := [], hwr := [],
    blocks := [] }

/-- `hash=0; for (i=0; i<count; i++) update_hash (0, buf[i]);` — the rolling
hash initialisation executed whenever `Base==0`. -/
def hashInitN (cPL : Nat) (buf : Nat → Nat) : Nat → Nat
  | 0 => 0
  | j + 1 => update_hash cPL (hashInitN cPL buf j) 0 (buf j)

/-- `LowBound` of the probe loop: the lower extension limit from the wrap
math (`match<i? i-match : match-(Base+Size)>i? 0 : i-(match-(Base+Size))`,
with `bs = Base+Size`). -/
def matchLowBound (bs i m : Nat) : Nat :=
  if m < i then i - m else if i < m - bs then 0 else i - (m - bs)

/-- `HighBound = BlockSize - match + i` of the probe loop (computed over
the integers as the C ints do, then clamped to `Nat`; it is nonnegative in
every reachable probe). -/
def matchHighBound (P : RepParams) (i m : Nat) : Nat :=
  ((P.BlockSize : Int) - m + i).toNat

/-- `start = find_match_start (buf+match, buf+i, buf+mymax(last_match,LowBound)) - buf`. -/
def matchStart (bs : Nat) (st : EncSt) (i m : Nat) : Nat :=
  find_match_start st.buf m i (max st.last_match (matchLowBound bs i m))

/-- `end = find_match_end (buf+match, buf+i, buf+mymin(Base+Size,HighBound)) - buf`. -/
def matchEnd (P : RepParams) (bs : Nat) (st : EncSt) (i m : Nat) : Nat :=
  find_match_end st.buf m i (min bs (matchHighBound P i m))

/-- `offset = i-match; if (offset<0) offset += BlockSize;`. -/
def matchOff (P : RepParams) (i m : Nat) : Nat :=
  if m ≤ i then i - m else i + P.BlockSize - m

/-- The required minimal match length: `i-match<Barrier? MinMatchLen :
SmallestLen` (a signed comparison in the source). -/
def reqLen (P : RepParams) (i m : Nat) : Nat :=
  if (i : Int) - m < (P.Barrier : Int) then P.MinMatchLen else P.SmallestLen

/-- The extension-and-emission part of the probe body, after the
just-read-window rejection: if the extended match reaches the required
length, the four staging arrays receive the record, `literals` and
`last_match` advance, and the ghost `mtrace` logs the event. -/
def emitMatch (P : RepParams) (bs : Nat) (st : EncSt) (i m : Nat) : EncSt :=
  if reqLen P i m ≤ matchEnd P bs st i m - matchStart bs st i m then
    { st with
      dataOffsets := st.dataOffsets ++ [st.last_match],
      datalens := st.datalens ++ [matchStart bs st i m - st.last_match],
      offsets := st.offsets ++ [matchOff P i m],
      lens := st.lens ++ [matchEnd P bs st i m - matchStart bs st i m],
      literals := st.literals + (matchStart bs st i m - st.last_match),
      last_match := matchEnd P bs st i m,
      mtrace := st.mtrace ++
        [⟨i, m, bs, st.last_match, matchStart bs st i m, matchEnd P bs st i m,
          matchOff P i m, matchEnd P bs st i m - matchStart bs st i m⟩] }
  else st

/-- `match = hasharr[hash&HashMask]` — the raw table entry of the probe. -/
def probeMval (P : RepParams) (st : EncSt) : Nat :=
  st.hasharr (Nat.land st.hash (repHashMask P))

/-- `match &= ~k1` — the candidate position with the checksum masked off
(`~k1` over 32-bit ints is `2^32 - k`). -/
def probeM (P : RepParams) (st : EncSt) : Nat :=
  Nat.land (probeMval P st) (2 ^ 32 - repK P)

/-- The probe part of one iteration of the probe loop body: the
`i >= last_match` guard, the table lookup with the checksum filter, the
just-read-window rejection, and `emitMatch`.  Neither `hash` nor `buf` nor
`hasharr` is modified here. -/
def probeStep (P : RepParams) (bs : Nat) (st : EncSt) (i : Nat) : EncSt :=
  if st.last_match ≤ i then
    if probeMval P st ≠ 0 ∧
       Nat.land (probeMval P st) (repK P - 1) = chksum (repK P - 1) st.hash then
      if i ≤ probeM P st ∧ probeM P st < bs then st          -- goto no_match
      else emitMatch P bs st i (probeM P st)
    else st
  else st

/-- `hasharr[hash&HashMask] = i + chksum` together with its ghost record. -/
def putEntry (P : RepParams) (st : EncSt) (i : Nat) : EncSt :=
  { st with
    hasharr := fun idx => if idx = Nat.land st.hash (repHashMask P)
                          then (i + chksum (repK P - 1) st.hash) % 2 ^ 32
                          else st.hasharr idx,
    hwr := st.hwr ++ [⟨i, chksum (repK P - 1) st.hash⟩] }

/-- The guarded insert of the probe loop:
`if ((i&k1) == 0)  hasharr[hash&HashMask] = i + chksum;`. -/
def insertStep (P : RepParams) (st : EncSt) (i : Nat) : EncSt :=
  if Nat.land i (repK P - 1) = 0 then putEntry P st i else st

/-- `update_hash (buf[i], buf[i+L])` — the rolling-hash advance. -/
def hashStep (P : RepParams) (st : EncSt) (i : Nat) : EncSt :=
  { st with hash := update_hash (repCPL P) st.hash (st.buf i) (st.buf (i + repL P)) }

/-- One iteration of the probe loop body: the guarded probe with possible
emission, the guarded insert, and the rolling-hash advance (`hash` and
`buf` are untouched by the first two phases, so the checksum and slot used
by the insert are the ones of the probe, as in the source). -/
def innerStep (P : RepParams) (bs : Nat) (st : EncSt) (i : Nat) : EncSt :=
  hashStep P (insertStep P (probeStep P bs st i) i) i

/-- The probe loop: `test` iterations of `innerStep`, `i` advancing by one
each time; returns the state and the final `i`. -/
def innerLoop (P : RepParams) (bs : Nat) : Nat → EncSt → Nat → EncSt × Nat
  | 0, st, i => (st, i)
  | j + 1, st, i => innerLoop P bs j (innerStep P bs st i) (i + 1)

/-- `for (j=0; j<k; j++, i++) update_hash (buf[i], buf[i+L]);` — the hash
advance inside the skip loop. -/
def skipHashes (P : RepParams) : Nat → EncSt → Nat → EncSt × Nat
  | 0, st, i => (st, i)
  | j + 1, st, i =>
      skipHashes P j
        { st with hash := update_hash (repCPL P) st.hash (st.buf i) (st.buf (i + repL P)) }
        (i + 1)

/-- The skip loop: `while ((i&(L-1)) != 0) { hasharr[hash&HashMask] = i +
chksum; for (j=0; j<k; j++, i++) update_hash(buf[i], buf[i+L]); }`, with
fuel (the loop runs at most `L/k` times when `i` is a multiple of `k`). -/
def skipLoop (P : RepParams) : Nat → EncSt → Nat → EncSt × Nat
  | 0, st, i => (st, i)
  | fuel + 1, st, i =>
      if Nat.land i (repL P - 1) ≠ 0 then
        let r := skipHashes P (repK P) (putEntry P st i) i
        skipLoop P fuel r.1 r.2
      else (st, i)

/-- The scan loop `for (int i=last_i; i+L*2 < Base+Size; last_i=i)`, with
fuel (each iteration advances `i` by `test ≥ 1` when `Amplifier ≥ 1`). -/
def outerLoop (P : RepParams) (bs : Nat) : Nat → EncSt → EncSt
  | 0, st => st
  | fuel + 1, st =>
      if st.last_i + repL P * 2 < bs then
        let r1 := innerLoop P bs (repTest P) st st.last_i
        let r2 := skipLoop P (repL P) r1.1 r1.2
        outerLoop P bs fuel { r2.1 with last_i := r2.2 }
      else st

/-- The number of bytes `Size` delivered by the read callback of one
cycle: the request `min (BlockSize - Base, FirstTime ? MAX_READ :
min (BlockSize/8, MAX_READ))`, answered with `min (request, remaining)`. -/
def scanSize (P : RepParams) (X : List Nat) (consumed : Nat)
    (FirstTime : Bool) (base : Nat) : Nat :=
  min (min (P.BlockSize - base)
           (if FirstTime then MAX_READ else min (P.BlockSize / 8) MAX_READ))
      (X.length - consumed)

/-- The read itself (`Size` bytes placed at `buf + Base`) together with
the first-time prologue `Put32 (BlockSize)`. -/
def scanRead (P : RepParams) (X : List Nat) (consumed : Nat)
    (FirstTime : Bool) (st : EncSt) (Size : Nat) : EncSt :=
  let st1 := { st with
    buf := fun t => if st.Base ≤ t ∧ t < st.Base + Size
                    then X.getD (consumed + (t - st.Base)) 0 else st.buf t }
  if FirstTime then { st1 with out := st1.out ++ le32 P.BlockSize } else st1

/-- The hash re-initialisation at `Base == 0` and the per-cycle reset of
the staging arrays (`num=0; datalens.clear(); ...`). -/
def scanInit (P : RepParams) (st : EncSt) (Size : Nat) : EncSt :=
  let st3 := if st.Base = 0
             then { st with hash := hashInitN (repCPL P) st.buf (min (repL P) Size) }
             else st
  { st3 with lens := [], offsets := [], datalens := [],
             dataOffsets := [], literals := 0 }

/-- `Base += Size` and the `if (Base==BlockSize) last_i=Base;`
adjustment after the scan loop. -/
def scanPost (P : RepParams) (st : EncSt) (Size : Nat) : EncSt :=
  let st6 := { st with Base := st.Base + Size }
  if st6.Base = P.BlockSize then { st6 with last_i := st6.Base } else st6

/-- The read-and-scan phase of one cycle of the main loop of
`rep_compress`: read, first-time prologue, hash re-initialisation at
`Base==0`, the scan loop, `Base += Size`, and the `last_i=Base`
adjustment.  Returns the new state together with `Size` (`Size = 0` means
the caller breaks out of the loop without emitting a block). -/
def encCycleScan (P : RepParams) (X : List Nat) (consumed : Nat)
    (FirstTime : Bool) (st : EncSt) : EncSt × Nat :=
  let Size := scanSize P X consumed FirstTime st.Base
  let st2 := scanRead P X consumed FirstTime st Size
  if Size = 0 then (st2, 0)
  else
    let st4 := scanInit P st2 Size
    (scanPost P (outerLoop P (st4.Base + Size) (st4.Base + Size + 1) st4) Size, Size)

/-- The emission phase of one cycle: the tail record (a zero-length
`datalens` record when `last_match > last_i`, otherwise the trailing
literal run), the `Base==BlockSize` reset, and the framed block written to
the output stream.  `lm0` is `last_match` at the start of the cycle (ghost
data for the block trace). -/
def encCycleEmit (P : RepParams) (lm0 : Nat) (st : EncSt) : EncSt :=
  let st :=
    if st.last_i < st.last_match then
      { st with datalens := st.datalens ++ [0] }
    else
      { st with
        dataOffsets := st.dataOffsets ++ [st.last_match],
        datalens := st.datalens ++ [st.last_i - st.last_match],
        literals := st.literals + (st.last_i - st.last_match),
        last_match := st.last_i }
  let st := if st.Base = P.BlockSize
            then { st with Base := 0, last_match := 0, last_i := 0 }
            else st
  let outsize := 4 * 2 + 4 * st.lens.length + 4 * st.offsets.length
                 + 4 * st.datalens.length + st.literals
  let blockBytes :=
    le32 (outsize - 4) ++ le32 st.lens.length
    ++ st.lens.flatMap le32 ++ st.offsets.flatMap le32
    ++ st.datalens.flatMap le32
    ++ literalBytes st.buf st.dataOffsets st.datalens
  { st with
    out := st.out ++ blockBytes,
    blocks := st.blocks ++ [⟨lm0, st.lens, st.offsets, st.datalens, st.dataOffsets⟩] }

/-- One full cycle: scan phase, then (unless the read returned `0` bytes)
the emission phase. -/
def encCycle (P : RepParams) (X : List Nat) (consumed : Nat)
    (FirstTime : Bool) (st : EncSt) : EncSt × Nat :=
  let r := encCycleScan P X consumed FirstTime st
  if r.2 = 0 then (r.1, 0)
  else (encCycleEmit P st.last_match r.1, r.2)

/-- The main loop of `rep_compress` (fuelled; each recursive call consumes
`Size ≥ 1` input bytes, so `X.length + 2` cycles are always enough). -/
def mainLoop (P : RepParams) (X : List Nat) : Nat → Nat → Bool → EncSt → EncSt
  | 0, _, _, st => st
  | fuel + 1, consumed, FirstTime, st =>
      let r := encCycle P X consumed FirstTime st
      if r.2 = 0 then r.1
      else mainLoop P X fuel (consumed + r.2) false r.1

/-- The terminator block written after the main loop exits
(`Put32 (8+datalen); Put32 (0); Put32 (datalen);
FWRITE (buf + last_match, datalen); Put32 (0);`). -/
def repFinale (st : EncSt) : EncSt :=
  let datalen := st.Base - st.last_match
  { st with
    out := st.out ++ le32 (4 * 2 + datalen) ++ le32 0 ++ le32 datalen
           ++ bufSlice st.buf st.last_match datalen ++ le32 0 }

/-- `rep_compress` on input `X`: the parameter clamp, the main loop, and
the terminator block. -/
def rep_compress (P0 : RepParams) (X : List Nat) : EncSt :=
  let P := clampP P0
  repFinale (mainLoop P X (X.length + 2) 0 true encInit)

/-- The byte stream written by `rep_compress`. -/
def rep_compress_bytes (P : RepParams) (X : List Nat) : List Nat :=
  (rep_compress P X).out

/-- Read a little-endian 32-bit word from the head of a byte list (the
`READ4` / `*(int32*)p` accesses of rep.cpp on a little-endian host).  The
word values written by the encoder are genuine bytes, so no truncation is
applied. -/
def get32 (l : List Nat) : Nat :=
  l.getD 0 0 + l.getD 1 0 * 2 ^ 8 + l.getD 2 0 * 2 ^ 16 + l.getD 3 0 * 2 ^ 24

/-- Decoder state for `rep_decompress`.  Allocation succeeds in the model,
so there is a single output segment `data0` of size `BlockSize`
(`data0_size == BlockSize`, hence `block0` never flips and `start = data0`
always); `ring` is that segment, `dataPos = data - data0`, `lastData =
last_data - data0`, and `out` accumulates the bytes passed to the write
callback. -/
structure DecSt where
  ring : Nat → Nat
  dataPos : Nat
  lastData : Nat
  out : List Nat

/-- Initial decoder state. -/
def decInit : DecSt :=
  { ring := fun _ => 0, dataPos := 0, lastData := 0, out := [] }

/-- `WRITE(last_data, data-last_data)` — flush the pending segment
contents to the write callback. -/
def writeFlush (st : DecSt) : DecSt :=
  { st with out := st.out ++ bufSlice st.ring st.lastData (st.dataPos - st.lastData) }

/-- The literal-copy loop of the decoder:
`while (end-data < datalens[i]) { copy what fits; flush; reset; }` followed
by the final `memcpy (data, buf, datalens[i])`.  `cur` is the read cursor
into the literal area of the block; the mutated `datalens[i]` of the source
is modelled by the explicit `dlen` argument.  Returns the state and the new
cursor.  Fuel `dlen + 2` is always sufficient for `B ≥ 1`. -/
def decLiteral (B : Nat) (lit : Nat → Nat) : Nat → Nat → Nat → DecSt → DecSt × Nat
  | 0, cur, _, st => (st, cur)
  | fuel + 1, cur, dlen, st =>
      if B - st.dataPos < dlen then
        let len := B - st.dataPos
        let st := { st with
          ring := fun t => if st.dataPos ≤ t ∧ t < st.dataPos + len
                           then lit (cur + (t - st.dataPos)) else st.ring t,
          dataPos := st.dataPos + len }
        let st := { (writeFlush st) with lastData := 0, dataPos := 0 }
        decLiteral B lit fuel (cur + len) (dlen - len) st
      else
        ({ st with
           ring := fun t => if st.dataPos ≤ t ∧ t < st.dataPos + dlen
                            then lit (cur + (t - st.dataPos)) else st.ring t,
           dataPos := st.dataPos + dlen }, cur + dlen)

/-- The wrap-handling part of the decoder's match expansion:
`while (offset > data-start && lens[i] || end-data < lens[i]) { ... }`.
With a single segment `start = data0`, `dataPos = data-start`, the source
address is `fromPos` inside the same segment and `fromEnd = B`.  Returns
the state and the remaining length (the mutated `lens[i]`). -/
def decMatchPre (B : Nat) : Nat → Nat → Nat → DecSt → DecSt × Nat
  | 0, _, lenRem, st => (st, lenRem)
  | fuel + 1, off, lenRem, st =>
      if (st.dataPos < off ∧ lenRem ≠ 0) ∨ B - st.dataPos < lenRem then
        let fromPos := if off ≤ st.dataPos then st.dataPos - off
                       else st.dataPos + B - off
        let len := min (min (B - st.dataPos) (B - fromPos)) lenRem
        let st := { st with
          ring := memcpy_lz_match st.ring st.dataPos fromPos len,
          dataPos := st.dataPos + len }
        let st := if st.dataPos = B
                  then { (writeFlush st) with lastData := 0, dataPos := 0 }
                  else st
        decMatchPre B fuel off (lenRem - len) st
      else (st, lenRem)

/-- The per-block record loop of the decoder (`for (int i=0; ; i++)`):
interleave literal runs and match expansions, with a final literal run at
`i == num`.  The first argument counts the remaining match records
(`num - i`). -/
def decRecords (B : Nat) (lens offs dlens lit : Nat → Nat) :
    Nat → Nat → Nat → DecSt → DecSt
  | 0, i, cur, st => (decLiteral B lit (dlens i + 2) cur (dlens i) st).1
  | r + 1, i, cur, st =>
      let r1 := decLiteral B lit (dlens i + 2) cur (dlens i) st
      let r2 := decMatchPre B (lens i + 2) (offs i) (lens i) r1.1
      let st2 := { r2.1 with
        ring := memcpy_lz_match r2.1.ring r2.1.dataPos (r2.1.dataPos - offs i) r2.2,
        dataPos := r2.1.dataPos + r2.2 }
      decRecords B lens offs dlens lit r (i + 1) r1.2 st2

/-- The block loop of `rep_decompress`: read `ComprSize` (`0` means EOF),
read the block, locate `num` and the `lens`/`offsets`/`datalens` arrays and
the literal area at their fixed offsets inside it, replay the records, and
flush.  A truncated stream (fewer bytes available than requested) is an
error, modelled from the spec's callback contract (`READ`/`READ4` of
Compression.h are not under src/). -/
def decBlocks (B : Nat) : Nat → List Nat → DecSt → Option (List Nat)
  | 0, _, _ => none
  | fuel + 1, inp, st =>
      if inp.length < 4 then none
      else
        let cs := get32 inp
        let inp := inp.drop 4
        if cs = 0 then some st.out
        else if inp.length < cs then none
        else
          let blk := inp.take cs
          let num := get32 blk
          let lens := fun i => get32 (blk.drop (4 + 4 * i))
          let offs := fun i => get32 (blk.drop (4 + 4 * num + 4 * i))
          let dlens := fun i => get32 (blk.drop (4 + 8 * num + 4 * i))
          let lit := fun j => blk.getD (8 + 12 * num + j) 0
          let st := decRecords B lens offs dlens lit num 0 0 st
          let st := writeFlush st
          let st := { st with lastData := st.dataPos }
          decBlocks B fuel (inp.drop cs) st

/-- `rep_decompress` on a byte stream: read `BlockSize` from the prologue
word, then decode blocks until the EOF sentinel.  All tuning parameters of
the C signature are ignored by the decoder. -/
def rep_decompress (input : List Nat) : Option (List Nat) :=
  if input.length < 4 then none
  else decBlocks (get32 input) (input.length + 1) (input.drop 4) decInit

/-- The rolling hash at scan position `i`: initialised by `L` updates over
`buf[0..L)` (`hashInitN`), then advanced one position at a time by
`update_hash (buf t) (buf (t+L))`, exactly as the scan loop of
`rep_compress` does. -/
def hashAt (cPL : Nat) (buf : Nat → Nat) (L : Nat) : Nat → Nat
  | 0 => hashInitN cPL buf L
  | i + 1 => update_hash cPL (hashAt cPL buf L i) (buf i) (buf (i + L))

/-- The polynomial value of the `L`-byte window starting at `i`, modulo
`2 ^ 32`. -/
def hashOfWindow (buf : Nat → Nat) (i L : Nat) : Nat :=
  (∑ j ∈ Finset.range L, buf (i + j) * PRIME ^ (L - 1 - j)) % 2 ^ 32

/-- Ghost property of one emitted match record (claims C3/C4): the probe
position respects `last_match`, the candidate was not rejected as lying in
the just-read window, the extension bounds respect `last_match` and
`Base+Size`, the stored length is `end - start`, and the length-threshold
guard held. -/
def EvOK (P : RepParams) (ev : MatchEv) : Prop :=
  ev.lm ≤ ev.i ∧
  ¬ (ev.i ≤ ev.m ∧ ev.m < ev.bs) ∧
  ev.lm ≤ ev.s ∧ ev.s ≤ ev.i ∧ ev.i ≤ ev.e ∧ ev.e ≤ ev.bs ∧
  ev.len = ev.e - ev.s ∧
  (if (ev.i : Int) - (ev.m : Int) < (P.Barrier : Int) then P.MinMatchLen
   else P.SmallestLen) ≤ ev.len

/-- Ghost property of one hash-table write (claim C7): it happened at a
position that is a multiple of `k`, with a checksum fitting in the low
`log2 k` bits, at a position inside the block. -/
def HwOK (P : RepParams) (ev : HashWr) : Prop :=
  ev.i % repK P = 0 ∧ ev.chk ≤ repK P - 1 ∧ ev.i < P.BlockSize

/-- The chain property of the per-block staging arrays while a cycle is
running (claim C5): reading `dataOffsets`/`datalens`/`lens` in parallel
from literal cursor `lm`, every `dataOffsets` entry equals the current
cursor and each record advances it by `datalen + len`; `lmEnd` is the
cursor after all records. -/
def ChainSeg : Nat → List Nat → List Nat → List Nat → Nat → Prop
  | lm, [], [], [], lmEnd => lmEnd = lm
  | lm, dof :: dos, dl :: dls, l :: ls, lmEnd =>
      dof = lm ∧ ChainSeg (lm + dl + l) dos dls ls lmEnd
  | _, _, _, _, _ => False

/-- The chain property of an emitted block (claim C5): as `ChainSeg`, with
the closing record appended by the tail logic — either a zero-length
`datalens` record with no `dataOffsets` entry (the `last_match > last_i`
case) or a trailing literal record starting at the final cursor. -/
def ChainClosed : Nat → List Nat → List Nat → List Nat → Prop
  | lm, dos, [dl], [] => (dos = [] ∧ dl = 0) ∨ dos = [lm]
  | lm, dof :: dos, dl :: dls, l :: ls =>
      dof = lm ∧ ChainClosed (lm + dl + l) dos dls ls
  | _, _, _, _ => False

/-- Ghost property of one emitted block (claim C5). -/
def BlkOK (b : BlockRec) : Prop :=
  b.offsets.length = b.lens.length ∧
  ChainClosed b.lm0 b.dataOffsets b.datalens b.lens

/-- The encoder trace invariant: all recorded hash-table writes, emitted
matches and emitted blocks are well-formed. -/
def EncInv (P : RepParams) (st : EncSt) : Prop :=
  (∀ ev ∈ st.hwr, HwOK P ev) ∧ (∀ ev ∈ st.mtrace, EvOK P ev) ∧
  (∀ b ∈ st.blocks, BlkOK b)

/-- The staging-array invariant holding during one cycle, relative to
`lm0`, the value of `last_match` when the cycle started. -/
def StageOK (lm0 : Nat) (st : EncSt) : Prop :=
  ChainSeg lm0 st.dataOffsets st.datalens st.lens st.last_match ∧
  st.offsets.length = st.lens.length

/-- "No duplication of length `≥ S` exists in `X`" (claim C9): the
`S`-byte substrings at any two distinct positions that both fit inside
`X` differ somewhere. -/
def NoDup (X : List Nat) (S : Nat) : Prop :=
  ∀ q, q < X.length → ∀ p, p < q → q + S ≤ X.length →
    ∃ j, j < S ∧ X.getD (p + j) 0 ≠ X.getD (q + j) 0

instance (X : List Nat) (S : Nat) : Decidable (NoDup X S) :=
  inferInstanceAs (Decidable (∀ q, q < X.length → ∀ p, p < q → q + S ≤ X.length →
    ∃ j, j < S ∧ X.getD (p + j) 0 ≠ X.getD (q + j) 0))

/-- The same property at the buffer level, over the scanned window
`[0, bs)`. -/
def BufNoDup (S bs : Nat) (buf : Nat → Nat) : Prop :=
  ∀ p q, p < q → q + S ≤ bs → ∃ j, j < S ∧ buf (p + j) ≠ buf (q + j)

/-- Single-cycle hash-table invariant (claim C9): every nonzero entry of
`hasharr` is a position below `bnd` that is a multiple of `k`, packed with
a checksum in the low bits. -/
def TableOK (P : RepParams) (bnd : Nat) (st : EncSt) : Prop :=
  ∀ idx, st.hasharr idx = 0 ∨
    ∃ ip c, st.hasharr idx = ip + c ∧ ip % repK P = 0 ∧ c < repK P ∧ ip < bnd

/-! ### Lemmas about `memcpy_lz_match` -/

theorem memcpy_lz_match_succ (mem : Nat → Nat) (p q len t : Nat) :
    memcpy_lz_match mem p q (len + 1) t =
      if t = p + len then memcpy_lz_match mem p q len (q + len)
      else memcpy_lz_match mem p q len t := by
  induction len generalizing mem p q t with
  | zero => simp [memcpy_lz_match]
  | succ n ih =>
      have h1 : memcpy_lz_match mem p q (n + 1 + 1) t =
          memcpy_lz_match (fun s => if s = p then mem q else mem s)
            (p + 1) (q + 1) (n + 1) t := rfl
      rw [h1, ih]
      have h2 : memcpy_lz_match mem p q (n + 1) =
          memcpy_lz_match (fun s => if s = p then mem q else mem s)
            (p + 1) (q + 1) n := rfl
      rw [h2, show p + 1 + n = p + (n + 1) by omega,
          show q + 1 + n = q + (n + 1) by omega]

theorem memcpy_lz_match_frame (mem : Nat → Nat) (p q len t : Nat)
    (h : t < p ∨ p + len ≤ t) : memcpy_lz_match mem p q len t = mem t := by
  induction len generalizing mem p q with
  | zero => rfl
  | succ n ih =>
      have h1 : memcpy_lz_match mem p q (n + 1) t =
          memcpy_lz_match (fun s => if s = p then mem q else mem s)
            (p + 1) (q + 1) n t := rfl
      rw [h1, ih _ _ _ (by omega)]
      simp only [if_neg (by omega : ¬ t = p)]

/-- Claim C8: for every destination `p`, offset `off ≥ 1` (with `off ≤ p`
so that the source address exists) and length `len` — including the
self-referential case `off < len` — the decoder's copy routine
`memcpy_lz_match p (p - off) len` leaves the byte at `p + j` equal to the
byte `off` positions earlier, for every `j < len`: the forward byte-by-byte
copy produces the periodic extension in which each output byte can serve as
a source for later ones. -/
theorem C8_memcpy_lz_match_self_referential (mem : Nat → Nat)
    (p off len : Nat) (hoff : 1 ≤ off) (hop : off ≤ p) :
    ∀ j, j < len →
      memcpy_lz_match mem p (p - off) len (p + j) =
      memcpy_lz_match mem p (p - off) len (p + j - off) := by
  induction len with
  | zero => intro j hj; omega
  | succ n ih =>
      intro j hj
      rcases Nat.lt_succ_iff_lt_or_eq.mp hj with hj1 | rfl
      · rw [memcpy_lz_match_succ, memcpy_lz_match_succ,
            if_neg (by omega : ¬ p + j = p + n),
            if_neg (by omega : ¬ p + j - off = p + n)]
        exact ih j hj1
      · rw [memcpy_lz_match_succ, memcpy_lz_match_succ,
            if_pos rfl, if_neg (by omega : ¬ p + j - off = p + j)]
        congr 1
        omega

/-- Witness for C8 at `p = 6`, `off = 2`, `len = 7` (a self-referential
copy, `off < len`). -/
theorem C8_witness :
    1 ≤ 2 ∧ 2 ≤ 6 ∧
    (∀ j, j < 7 →
      memcpy_lz_match (fun t => t % 3 + 10 * t) 6 (6 - 2) 7 (6 + j) =
      memcpy_lz_match (fun t => t % 3 + 10 * t) 6 (6 - 2) 7 (6 + j - 2)) :=
  ⟨by decide, by decide,
   C8_memcpy_lz_match_self_referential (fun t => t % 3 + 10 * t) 6 2 7
     (by decide) (by decide)⟩

/-! ### The parameter clamp (claim C10) -/

theorem clampP_BlockSize (P : RepParams) : (clampP P).BlockSize = P.BlockSize := by
  unfold clampP; split <;> rfl

/-- Claim C10: when `smallest_len` exceeds `min_len`, `rep_compress` does
not fail; it silently clamps `smallest_len` to `min_len` and produces
exactly the same result (in particular the same output byte stream; the
model is total, so the return code is the same as well) as the call with
`smallest_len = min_len`. -/
theorem C10_clamp (P : RepParams) (X : List Nat)
    (h : P.MinMatchLen < P.SmallestLen) :
    rep_compress P X = rep_compress { P with SmallestLen := P.MinMatchLen } X := by
  have hc : clampP P = clampP { P with SmallestLen := P.MinMatchLen } := by
    simp [clampP, h]
  simp only [rep_compress, hc]

/-- Witness for C10 at concrete parameters with `smallest_len = 5 >
min_len = 2`. -/
theorem C10_witness :
    (⟨64, 0, 2, 1024, 5, 4, 1⟩ : RepParams).MinMatchLen
      < (⟨64, 0, 2, 1024, 5, 4, 1⟩ : RepParams).SmallestLen ∧
    rep_compress ⟨64, 0, 2, 1024, 5, 4, 1⟩ [3, 3, 3, 3, 3, 3] =
      rep_compress ⟨64, 0, 2, 1024, 2, 4, 1⟩ [3, 3, 3, 3, 3, 3] :=
  ⟨by decide, C10_clamp ⟨64, 0, 2, 1024, 5, 4, 1⟩ [3, 3, 3, 3, 3, 3] (by decide)⟩
theorem mainLoop_succ (P : RepParams) (X : List Nat) (fuel consumed : Nat)
    (ft : Bool) (st : EncSt) :
    mainLoop P X (fuel + 1) consumed ft st =
      (if (encCycle P X consumed ft st).2 = 0 then (encCycle P X consumed ft st).1
       else mainLoop P X fuel (consumed + (encCycle P X consumed ft st).2) false
              (encCycle P X consumed ft st).1) := rfl

theorem bufSlice_zero (buf : Nat → Nat) (off : Nat) : bufSlice buf off 0 = [] := rfl

/-- Claim C2 (amended): for the empty input the complete output stream of
`rep_compress` consists of exactly the five little-endian 32-bit words
`block_size, 8, 0, 0, 0`: the prologue word, then the terminator block
whose compressed-size word is `sizeof(int32)*2 + 0 = 8`, with `num = 0` and
a zero tail datalen, then the EOF sentinel word. -/
theorem C2_empty_stream (P : RepParams) :
    rep_compress_bytes P [] =
      le32 P.BlockSize ++ le32 8 ++ le32 0 ++ le32 0 ++ le32 0 := by
  simp only [rep_compress_bytes, rep_compress, repFinale, List.length_nil, Nat.zero_add]
  rw [show (2 : Nat) = 1 + 1 from rfl, mainLoop_succ]
  simp [encCycle, encCycleScan, scanSize, scanRead, encInit, bufSlice_zero, clampP_BlockSize]

/-- Counterexample for claim C2 as stated: at `block_size = 64` the second
word of the stream for the empty input is `8`, not `0`. -/
theorem C2_counterexample :
    rep_compress_bytes ⟨64, 0, 2, 1024, 2, 4, 1⟩ [] ≠
      le32 64 ++ le32 0 ++ le32 0 ++ le32 0 ++ le32 0 := by decide

/-- Claim C1 (failing input): with `block_size = 2` (permitted by the
stated constraint `block_size ≥ 2L`, since `smallest_len = min_len = 2`
gives `L = 1`) and the three-byte input `[1, 2, 3]`, the second read
request of `rep_compress` is `min (BlockSize-Base) (min (BlockSize/8)
MAX_READ) = 0` bytes, the `0`-byte answer is taken for EOF, and the
compressed stream decodes to `[1, 2]`: the round trip loses the tail. -/
theorem C1_failing_input :
    rep_decompress (rep_compress_bytes ⟨2, 0, 2, 1024, 2, 4, 1⟩ [1, 2, 3])
      = some [1, 2] ∧ ([1, 2] : List Nat) ≠ [1, 2, 3] := by decide
/-! ### The rolling hash (claim C6) -/

theorem update_hash_cast (cPL h s a : Nat) :
    ((update_hash cPL h s a : Nat) : ZMod (2 ^ 32)) =
      (h : ZMod (2 ^ 32)) * PRIME + a - s * cPL := by
  unfold update_hash
  rw [ZMod.natCast_mod, Nat.cast_add,
      Nat.cast_sub (Nat.le_of_lt (Nat.mod_lt _ (by norm_num)))]
  rw [ZMod.natCast_mod, ZMod.natCast_self]
  push_cast
  ring

theorem power_cast (b n : Nat) :
    ((power b n : Nat) : ZMod (2 ^ 32)) = (b : ZMod (2 ^ 32)) ^ n := by
  induction n with
  | zero => simp [power]
  | succ m ih =>
      show (((power b m * b) % 2 ^ 32 : Nat) : ZMod (2 ^ 32)) = _
      rw [ZMod.natCast_mod, Nat.cast_mul, ih]
      ring

theorem hashInitN_cast (cPL : Nat) (buf : Nat → Nat) (t : Nat) :
    ((hashInitN cPL buf t : Nat) : ZMod (2 ^ 32)) =
      ∑ j ∈ Finset.range t, (buf j : ZMod (2 ^ 32)) * PRIME ^ (t - 1 - j) := by
  induction t with
  | zero => simp [hashInitN]
  | succ n ih =>
      show ((update_hash cPL (hashInitN cPL buf n) 0 (buf n) : Nat) : ZMod (2 ^ 32)) = _
      rw [update_hash_cast, ih]
      rw [Finset.sum_range_succ, Finset.sum_mul]
      have he : ∀ j ∈ Finset.range n,
          (buf j : ZMod (2 ^ 32)) * PRIME ^ (n - 1 - j) * PRIME =
          (buf j : ZMod (2 ^ 32)) * PRIME ^ (n + 1 - 1 - j) := by
        intro j hj
        rw [Finset.mem_range] at hj
        rw [mul_assoc, ← pow_succ, show n - 1 - j + 1 = n + 1 - 1 - j by omega]
      rw [Finset.sum_congr rfl he]
      simp

theorem hashAt_cast (cPL : Nat) (buf : Nat → Nat) (L : Nat)
    (hc : cPL = power PRIME L) : ∀ i,
    ((hashAt cPL buf L i : Nat) : ZMod (2 ^ 32)) =
      ∑ j ∈ Finset.range L, (buf (i + j) : ZMod (2 ^ 32)) * PRIME ^ (L - 1 - j) := by
  intro i
  induction i with
  | zero => simpa using hashInitN_cast cPL buf L
  | succ i ih =>
      show ((update_hash cPL (hashAt cPL buf L i) (buf i) (buf (i + L)) : Nat)
              : ZMod (2 ^ 32)) = _
      rw [update_hash_cast, ih, hc, power_cast]
      cases L with
      | zero => simp
      | succ l =>
          rw [Finset.sum_range_succ']
          rw [Finset.sum_range_succ _ l]
          rw [add_mul, Finset.sum_mul]
          have he : ∀ j ∈ Finset.range l,
              (buf (i + (j + 1)) : ZMod (2 ^ 32)) * PRIME ^ (l + 1 - 1 - (j + 1)) * PRIME =
              (buf (i + 1 + j) : ZMod (2 ^ 32)) * PRIME ^ (l + 1 - 1 - j) := by
            intro j hj
            rw [Finset.mem_range] at hj
            rw [mul_assoc, ← pow_succ,
                show l + 1 - 1 - (j + 1) + 1 = l + 1 - 1 - j by omega,
                show i + (j + 1) = i + 1 + j by omega]
          rw [Finset.sum_congr rfl he]
          simp only [Nat.add_zero]
          rw [show l + 1 - 1 - 0 = l by omega,
              show l + 1 - 1 - l = 0 by omega,
              show i + 1 + l = i + (l + 1) by omega]
          rw [pow_zero, mul_one]
          ring

theorem hashAt_lt (cPL : Nat) (buf : Nat → Nat) (L i : Nat) :
    hashAt cPL buf L i < 2 ^ 32 := by
  cases i with
  | zero =>
      show hashInitN cPL buf L < 2 ^ 32
      cases L with
      | zero => norm_num [hashInitN]
      | succ l => exact Nat.mod_lt _ (by norm_num)
  | succ j => exact Nat.mod_lt _ (by norm_num)

theorem hashOfWindow_lt (buf : Nat → Nat) (i L : Nat) :
    hashOfWindow buf i L < 2 ^ 32 := Nat.mod_lt _ (by norm_num)

/-- Claim C6: the rolling hash is a pure function of the last `L` bytes.
After initialisation by `L` updates over `buf[0..L)` and one
`update_hash (buf t) (buf (t+L))` per advanced byte — the recurrence
`hash = hash*PRIME + byte_in - byte_out*PRIME^L` with `PRIME = 153191`,
all arithmetic modulo `2 ^ 32` — the hash at position `i` equals the
polynomial sum of `buf (i+j) * PRIME ^ (L-1-j)` over `j < L` modulo
`2 ^ 32`; consequently it is independent of all bytes outside the window
`[i, i+L)`. -/
theorem C6_rolling_hash_pure (buf : Nat → Nat) (L i : Nat) :
    hashAt (power PRIME L) buf L i = hashOfWindow buf i L ∧
    (∀ buf2 : Nat → Nat, (∀ j, j < L → buf2 (i + j) = buf (i + j)) →
      hashAt (power PRIME L) buf2 L i = hashAt (power PRIME L) buf L i) := by
  have key : ∀ b : Nat → Nat, hashAt (power PRIME L) b L i = hashOfWindow b i L := by
    intro b
    have heq : ((hashAt (power PRIME L) b L i : Nat) : ZMod (2 ^ 32)) =
        ((hashOfWindow b i L : Nat) : ZMod (2 ^ 32)) := by
      rw [hashAt_cast (power PRIME L) b L rfl i]
      unfold hashOfWindow
      rw [ZMod.natCast_mod]
      push_cast
      rfl
    rw [ZMod.natCast_eq_natCast_iff'] at heq
    rwa [Nat.mod_eq_of_lt (hashAt_lt _ _ _ _),
         Nat.mod_eq_of_lt (hashOfWindow_lt _ _ _)] at heq
  refine ⟨key buf, fun buf2 hagree => ?_⟩
  rw [key buf, key buf2]
  unfold hashOfWindow
  congr 1
  refine Finset.sum_congr rfl fun j hj => ?_
  rw [Finset.mem_range] at hj
  rw [hagree j hj]
/-! ### Structure of the derived parameters `L` and `k` -/

theorem rupLoop_pow (n : Nat) : ∀ fuel t, ∃ a, rupLoop 2 n fuel (2 ^ t) = 2 ^ a := by
  intro fuel
  induction fuel with
  | zero => intro t; exact ⟨t, rfl⟩
  | succ f ih =>
      intro t
      show (∃ a, (if n ≤ 2 ^ t then 2 ^ t else rupLoop 2 n f (2 ^ t * 2)) = 2 ^ a)
      by_cases h : n ≤ 2 ^ t
      · exact ⟨t, by rw [if_pos h]⟩
      · obtain ⟨a, ha⟩ := ih (t + 1)
        exact ⟨a, by rw [if_neg h, ← pow_succ, ha]⟩

theorem roundup_pow2 (n : Nat) : ∃ a, roundup_to_power_of n 2 = 2 ^ a := by
  have h := rupLoop_pow n n 0
  simpa [roundup_to_power_of] using h

theorem repL_pow2 (P : RepParams) : ∃ a, repL P = 2 ^ a := roundup_pow2 _

theorem sqrtbLoop_two_pow (m : Nat) :
    ∀ fuel, 2 ^ m ≤ fuel → sqrtbLoop 2 fuel (2 ^ m) = 2 ^ (m / 2) := by
  induction m using Nat.strong_induction_on with
  | _ m ih =>
      intro fuel hfuel
      have hpos : 1 ≤ 2 ^ m := Nat.one_le_two_pow
      obtain ⟨f, rfl⟩ : ∃ f, fuel = f + 1 := ⟨fuel - 1, by omega⟩
      by_cases hm : m < 2
      · have hz : 2 ^ m / (2 * 2) = 0 := by
          interval_cases m <;> decide
        have hm2 : m / 2 = 0 := by omega
        rw [hm2, pow_zero]
        show (if 2 ^ m / (2 * 2) = 0 then 1 else _) = 1
        rw [if_pos hz]
      · have hdiv : 2 ^ m / (2 * 2) = 2 ^ (m - 2) := by
          rw [show (2 * 2 : Nat) = 2 ^ 2 by norm_num,
              Nat.pow_div (by omega) (by norm_num)]
        have hne : 2 ^ m / (2 * 2) ≠ 0 := by
          rw [hdiv]
          have := Nat.two_pow_pos (m - 2)
          omega
        show (if 2 ^ m / (2 * 2) = 0 then 1 else 2 * sqrtbLoop 2 f (2 ^ m / (2 * 2))) = _
        rw [if_neg hne, hdiv, ih (m - 2) (by omega) f (by
          have h1 : (2 : Nat) ^ (m - 2) * 2 ≤ 2 ^ m := by
            rw [← pow_succ]
            exact Nat.pow_le_pow_right (by norm_num) (by omega)
          omega)]
        rw [← pow_succ']
        congr 1
        omega

theorem sqrtb_two_pow (m : Nat) : sqrtb (2 ^ m) 2 = 2 ^ (m / 2) := by
  unfold sqrtb
  rw [if_neg (by norm_num)]
  exact sqrtbLoop_two_pow m (2 ^ m) le_rfl

theorem repLK_structure (P : RepParams) :
    ∃ a b, repL P = 2 ^ a ∧ repK P = 2 ^ b ∧ b ≤ a := by
  obtain ⟨a, ha⟩ := repL_pow2 P
  refine ⟨a, (a + 1) / 2, ha, ?_, by omega⟩
  unfold repK
  rw [ha, ← pow_succ, sqrtb_two_pow]

theorem repK_pos (P : RepParams) : 1 ≤ repK P := by
  obtain ⟨a, b, _, hk, _⟩ := repLK_structure P
  rw [hk]; exact Nat.one_le_two_pow

theorem repL_pos (P : RepParams) : 1 ≤ repL P := by
  obtain ⟨a, b, hl, _, _⟩ := repLK_structure P
  rw [hl]; exact Nat.one_le_two_pow

theorem repK_dvd_repL (P : RepParams) : repK P ∣ repL P := by
  obtain ⟨a, b, hl, hk, hba⟩ := repLK_structure P
  rw [hl, hk]
  exact pow_dvd_pow 2 hba

theorem repK_dvd_repTest (P : RepParams) : repK P ∣ repTest P := by
  unfold repTest
  rcases le_total (repK P * P.Amplifier) (repL P) with h | h
  · rw [min_eq_left h]; exact Dvd.intro _ rfl
  · rw [min_eq_right h]; exact repK_dvd_repL P

theorem repTest_le_repL (P : RepParams) : repTest P ≤ repL P := min_le_right _ _

/-! ### Bitwise lemmas for the packed hash-table entries -/

theorem land_two_pow_sub_one (x κ : Nat) :
    Nat.land x (2 ^ κ - 1) = x % 2 ^ κ := Nat.and_pow_two_sub_one_eq_mod x κ

theorem chksum_le (k1 h : Nat) : chksum k1 h ≤ k1 := Nat.and_le_right

theorem add_eq_lor_of_aligned (κ i c : Nat) (hi : i % 2 ^ κ = 0) (hc : c < 2 ^ κ) :
    i + c = Nat.lor i c := by
  obtain ⟨q, rfl⟩ : ∃ q, i = 2 ^ κ * q := by
    obtain ⟨q, hq⟩ := Nat.dvd_of_mod_eq_zero hi
    exact ⟨q, hq⟩
  apply Nat.eq_of_testBit_eq
  intro j
  show (2 ^ κ * q + c).testBit j = (2 ^ κ * q ||| c).testBit j
  rw [Nat.testBit_mul_pow_two_add q hc, Nat.testBit_or, Nat.testBit_mul_pow_two]
  by_cases hj : j < κ
  · rw [if_pos hj, decide_eq_false (by omega : ¬ j ≥ κ)]
    simp
  · rw [if_neg hj, decide_eq_true (by omega : j ≥ κ)]
    have hcb : c.testBit j = false :=
      Nat.testBit_lt_two_pow
        (lt_of_lt_of_le hc (Nat.pow_le_pow_right (by norm_num) (by omega)))
    simp [hcb]

theorem land_mask_recover (κ i c : Nat) (hκ : κ ≤ 32) (hi : i % 2 ^ κ = 0)
    (hc : c < 2 ^ κ) (hlt : i + c < 2 ^ 32) :
    Nat.land (i + c) (2 ^ 32 - 2 ^ κ) = i := by
  obtain ⟨q, rfl⟩ : ∃ q, i = 2 ^ κ * q := by
    obtain ⟨q, hq⟩ := Nat.dvd_of_mod_eq_zero hi
    exact ⟨q, hq⟩
  have hmask : (2 : Nat) ^ 32 - 2 ^ κ = 2 ^ κ * (2 ^ (32 - κ) - 1) := by
    have hp : (2 : Nat) ^ κ * 2 ^ (32 - κ) = 2 ^ 32 := by
      rw [← pow_add]; congr 1; omega
    rw [Nat.mul_sub_one, hp]
  apply Nat.eq_of_testBit_eq
  intro j
  show ((2 ^ κ * q + c) &&& (2 ^ 32 - 2 ^ κ)).testBit j = _
  have hq : (2 ^ κ * q).testBit j = (decide (j ≥ κ) && q.testBit (j - κ)) :=
    Nat.testBit_mul_pow_two
  have hmaskbit : (2 ^ 32 - 2 ^ κ).testBit j =
      (decide (j ≥ κ) && decide (j - κ < 32 - κ)) := by
    rw [hmask, Nat.testBit_mul_pow_two, Nat.testBit_two_pow_sub_one]
  rw [Nat.testBit_and, Nat.testBit_mul_pow_two_add q hc, hmaskbit, hq]
  by_cases hj : j < κ
  · rw [if_pos hj, decide_eq_false (by omega : ¬ j ≥ κ)]
    simp
  · rw [if_neg hj, decide_eq_true (by omega : j ≥ κ)]
    by_cases hj32 : j - κ < 32 - κ
    · rw [decide_eq_true hj32]
      simp
    · rw [decide_eq_false hj32]
      have hqlt : q < 2 ^ (32 - κ) := by
        by_contra hq2
        push_neg at hq2
        have hge : (2 : Nat) ^ 32 ≤ 2 ^ κ * q := by
          calc (2 : Nat) ^ 32 = 2 ^ κ * 2 ^ (32 - κ) := by
                rw [← pow_add]; congr 1; omega
          _ ≤ 2 ^ κ * q := Nat.mul_le_mul_left _ hq2
        omega
      have hqb : q.testBit (j - κ) = false :=
        Nat.testBit_lt_two_pow
          (lt_of_lt_of_le hqlt (Nat.pow_le_pow_right (by norm_num) (by omega)))
      simp [hqb]
/-! ### Lemmas about the match extension routines -/

theorem find_match_start_le (buf : Nat → Nat) :
    ∀ q p low, find_match_start buf p q low ≤ q := by
  intro q
  induction q with
  | zero => intro p low; exact le_rfl
  | succ q ih =>
      intro p low
      show (if low < q + 1 then
              if buf (p - 1) = buf q then find_match_start buf (p - 1) q low
              else q + 1
            else q + 1) ≤ q + 1
      split
      · split
        · exact le_trans (ih (p - 1) low) (by omega)
        · exact le_rfl
      · exact le_rfl

theorem find_match_start_ge (buf : Nat → Nat) :
    ∀ q p low, low ≤ q → low ≤ find_match_start buf p q low := by
  intro q
  induction q with
  | zero => intro p low h; exact h
  | succ q ih =>
      intro p low h
      show low ≤ (if low < q + 1 then
              if buf (p - 1) = buf q then find_match_start buf (p - 1) q low
              else q + 1
            else q + 1)
      split
      · split
        · exact ih (p - 1) low (by omega)
        · exact h
      · exact h

theorem find_match_start_eq (buf : Nat → Nat) (d : Nat) :
    ∀ q p low, p + d = q → d ≤ low →
      ∀ t, find_match_start buf p q low ≤ t → t < q → buf (t - d) = buf t := by
  intro q
  induction q with
  | zero => intro p low _ _ t _ ht; omega
  | succ q ih =>
      intro p low hpd hdl t hge hlt
      by_cases hlow : low < q + 1
      · by_cases heq : buf (p - 1) = buf q
        · rw [show find_match_start buf p (q + 1) low =
                find_match_start buf (p - 1) q low by
              show (if low < q + 1 then
                      if buf (p - 1) = buf q then find_match_start buf (p - 1) q low
                      else q + 1
                    else q + 1) = _
              rw [if_pos hlow, if_pos heq]] at hge
          rcases Nat.lt_succ_iff_lt_or_eq.mp hlt with hlt1 | rfl
          · exact ih (p - 1) low (by omega) hdl t hge hlt1
          · rw [show t - d = p - 1 by omega]
            exact heq
        · exfalso
          rw [show find_match_start buf p (q + 1) low = q + 1 by
              show (if low < q + 1 then
                      if buf (p - 1) = buf q then find_match_start buf (p - 1) q low
                      else q + 1
                    else q + 1) = _
              rw [if_pos hlow, if_neg heq]] at hge
          omega
      · exfalso
        rw [show find_match_start buf p (q + 1) low = q + 1 by
            show (if low < q + 1 then
                    if buf (p - 1) = buf q then find_match_start buf (p - 1) q low
                    else q + 1
                  else q + 1) = _
            rw [if_neg hlow]] at hge
        omega

theorem find_match_end_loop_ge (buf : Nat → Nat) :
    ∀ r p q, q ≤ find_match_end_loop buf p q r := by
  intro r
  induction r with
  | zero => intro p q; exact le_rfl
  | succ r ih =>
      intro p q
      show q ≤ (if buf p = buf q then find_match_end_loop buf (p + 1) (q + 1) r else q)
      split
      · exact le_trans (by omega) (ih (p + 1) (q + 1))
      · exact le_rfl

theorem find_match_end_loop_le (buf : Nat → Nat) :
    ∀ r p q, find_match_end_loop buf p q r ≤ q + r := by
  intro r
  induction r with
  | zero => intro p q; exact Nat.le_add_right _ _
  | succ r ih =>
      intro p q
      show (if buf p = buf q then find_match_end_loop buf (p + 1) (q + 1) r else q) ≤ q + (r + 1)
      split
      · exact le_trans (ih (p + 1) (q + 1)) (by omega)
      · omega

theorem find_match_end_loop_eq (buf : Nat → Nat) (d : Nat) :
    ∀ r p q, p + d = q →
      ∀ t, q ≤ t → t < find_match_end_loop buf p q r → buf (t - d) = buf t := by
  intro r
  induction r with
  | zero =>
      intro p q _ t hge hlt
      have hz : find_match_end_loop buf p q 0 = q := rfl
      rw [hz] at hlt
      omega
  | succ r ih =>
      intro p q hpd t hge hlt
      by_cases heq : buf p = buf q
      · rw [show find_match_end_loop buf p q (r + 1) =
              find_match_end_loop buf (p + 1) (q + 1) r by
            show (if buf p = buf q then find_match_end_loop buf (p + 1) (q + 1) r
                  else q) = _
            rw [if_pos heq]] at hlt
        rcases Nat.eq_or_lt_of_le hge with heq2 | hgt
        · rw [← heq2, show q - d = p by omega]
          exact heq
        · exact ih (p + 1) (q + 1) (by omega) t hgt hlt
      · exfalso
        rw [show find_match_end_loop buf p q (r + 1) = q by
            show (if buf p = buf q then find_match_end_loop buf (p + 1) (q + 1) r
                  else q) = _
            rw [if_neg heq]] at hlt
        omega

theorem find_match_end_ge (buf : Nat → Nat) (p q high : Nat) :
    q ≤ find_match_end buf p q high := find_match_end_loop_ge buf _ p q

theorem find_match_end_le (buf : Nat → Nat) (p q high : Nat) :
    find_match_end buf p q high ≤ max q high := by
  have h := find_match_end_loop_le buf (high - q) p q
  unfold find_match_end
  omega

theorem find_match_end_eq (buf : Nat → Nat) (d p q high : Nat) (hpd : p + d = q) :
    ∀ t, q ≤ t → t < find_match_end buf p q high → buf (t - d) = buf t :=
  find_match_end_loop_eq buf d (high - q) p q hpd
/-! ### Characterisation of the probe-loop phases -/

theorem emitMatch_fields (P : RepParams) (bs : Nat) (st : EncSt) (i m : Nat) :
    (emitMatch P bs st i m).buf = st.buf ∧
    (emitMatch P bs st i m).hasharr = st.hasharr ∧
    (emitMatch P bs st i m).hash = st.hash ∧
    (emitMatch P bs st i m).Base = st.Base ∧
    (emitMatch P bs st i m).last_i = st.last_i ∧
    (emitMatch P bs st i m).out = st.out ∧
    (emitMatch P bs st i m).hwr = st.hwr ∧
    (emitMatch P bs st i m).blocks = st.blocks := by
  unfold emitMatch
  split_ifs <;> simp

theorem probeStep_fields (P : RepParams) (bs : Nat) (st : EncSt) (i : Nat) :
    (probeStep P bs st i).buf = st.buf ∧
    (probeStep P bs st i).hasharr = st.hasharr ∧
    (probeStep P bs st i).hash = st.hash ∧
    (probeStep P bs st i).Base = st.Base ∧
    (probeStep P bs st i).last_i = st.last_i ∧
    (probeStep P bs st i).out = st.out ∧
    (probeStep P bs st i).hwr = st.hwr ∧
    (probeStep P bs st i).blocks = st.blocks := by
  unfold probeStep
  split_ifs <;> first
    | exact emitMatch_fields P bs st i _
    | simp

theorem emitMatch_spec (P : RepParams) (bs : Nat) (st : EncSt) (i m : Nat) :
    emitMatch P bs st i m = st ∨
    (reqLen P i m ≤ matchEnd P bs st i m - matchStart bs st i m ∧
     emitMatch P bs st i m =
       { st with
         dataOffsets := st.dataOffsets ++ [st.last_match],
         datalens := st.datalens ++ [matchStart bs st i m - st.last_match],
         offsets := st.offsets ++ [matchOff P i m],
         lens := st.lens ++ [matchEnd P bs st i m - matchStart bs st i m],
         literals := st.literals + (matchStart bs st i m - st.last_match),
         last_match := matchEnd P bs st i m,
         mtrace := st.mtrace ++
           [⟨i, m, bs, st.last_match, matchStart bs st i m, matchEnd P bs st i m,
             matchOff P i m, matchEnd P bs st i m - matchStart bs st i m⟩] }) := by
  unfold emitMatch
  split_ifs with h
  · exact Or.inr ⟨h, rfl⟩
  · exact Or.inl rfl

theorem probeStep_spec (P : RepParams) (bs : Nat) (st : EncSt) (i : Nat) :
    probeStep P bs st i = st ∨
    (st.last_match ≤ i ∧ ¬ (i ≤ probeM P st ∧ probeM P st < bs) ∧
     probeStep P bs st i = emitMatch P bs st i (probeM P st)) := by
  unfold probeStep
  split_ifs with h1 h2 h3
  · exact Or.inl rfl
  · exact Or.inr ⟨h1, h3, rfl⟩
  · exact Or.inl rfl
  · exact Or.inl rfl

theorem putEntry_fields (P : RepParams) (st : EncSt) (i : Nat) :
    (putEntry P st i).buf = st.buf ∧
    (putEntry P st i).hash = st.hash ∧
    (putEntry P st i).Base = st.Base ∧
    (putEntry P st i).last_i = st.last_i ∧
    (putEntry P st i).last_match = st.last_match ∧
    (putEntry P st i).lens = st.lens ∧
    (putEntry P st i).offsets = st.offsets ∧
    (putEntry P st i).datalens = st.datalens ∧
    (putEntry P st i).dataOffsets = st.dataOffsets ∧
    (putEntry P st i).literals = st.literals ∧
    (putEntry P st i).out = st.out ∧
    (putEntry P st i).mtrace = st.mtrace ∧
    (putEntry P st i).blocks = st.blocks ∧
    (putEntry P st i).hwr = st.hwr ++ [⟨i, chksum (repK P - 1) st.hash⟩] := by
  simp [putEntry]

theorem insertStep_spec (P : RepParams) (st : EncSt) (i : Nat) :
    (insertStep P st i = st ∧ ¬ Nat.land i (repK P - 1) = 0) ∨
    (insertStep P st i = putEntry P st i ∧ Nat.land i (repK P - 1) = 0) := by
  unfold insertStep
  split_ifs with h
  · exact Or.inr ⟨rfl, h⟩
  · exact Or.inl ⟨rfl, h⟩

theorem hashStep_fields (P : RepParams) (st : EncSt) (i : Nat) :
    (hashStep P st i).buf = st.buf ∧
    (hashStep P st i).hasharr = st.hasharr ∧
    (hashStep P st i).Base = st.Base ∧
    (hashStep P st i).last_i = st.last_i ∧
    (hashStep P st i).last_match = st.last_match ∧
    (hashStep P st i).lens = st.lens ∧
    (hashStep P st i).offsets = st.offsets ∧
    (hashStep P st i).datalens = st.datalens ∧
    (hashStep P st i).dataOffsets = st.dataOffsets ∧
    (hashStep P st i).literals = st.literals ∧
    (hashStep P st i).out = st.out ∧
    (hashStep P st i).mtrace = st.mtrace ∧
    (hashStep P st i).blocks = st.blocks ∧
    (hashStep P st i).hwr = st.hwr := by
  simp [hashStep]
/-! ### Bounds for the match extension -/

theorem matchLowBound_le (bs i m : Nat) : matchLowBound bs i m ≤ i := by
  unfold matchLowBound
  split_ifs <;> omega

theorem matchStart_ge_lm (bs : Nat) (st : EncSt) (i m : Nat)
    (hlm : st.last_match ≤ i) : st.last_match ≤ matchStart bs st i m :=
  le_trans (le_max_left _ _)
    (find_match_start_ge st.buf i m _
      (max_le hlm (matchLowBound_le bs i m)))

theorem matchStart_le_i (bs : Nat) (st : EncSt) (i m : Nat) :
    matchStart bs st i m ≤ i := find_match_start_le st.buf i m _

theorem matchEnd_ge_i (P : RepParams) (bs : Nat) (st : EncSt) (i m : Nat) :
    i ≤ matchEnd P bs st i m := find_match_end_ge st.buf m i _

theorem matchEnd_le_bs (P : RepParams) (bs : Nat) (st : EncSt) (i m : Nat)
    (hibs : i ≤ bs) : matchEnd P bs st i m ≤ bs := by
  have h := find_match_end_le st.buf m i (min bs (matchHighBound P i m))
  have h2 : min bs (matchHighBound P i m) ≤ bs := min_le_left _ _
  unfold matchEnd
  omega

theorem emit_EvOK (P : RepParams) (bs : Nat) (st : EncSt) (i m : Nat)
    (hlm : st.last_match ≤ i) (hrej : ¬ (i ≤ m ∧ m < bs)) (hibs : i < bs)
    (hg : reqLen P i m ≤ matchEnd P bs st i m - matchStart bs st i m) :
    EvOK P ⟨i, m, bs, st.last_match, matchStart bs st i m, matchEnd P bs st i m,
            matchOff P i m, matchEnd P bs st i m - matchStart bs st i m⟩ := by
  refine ⟨hlm, hrej, matchStart_ge_lm bs st i m hlm, matchStart_le_i bs st i m,
          matchEnd_ge_i P bs st i m, matchEnd_le_bs P bs st i m (by omega), rfl, ?_⟩
  exact hg

/-! ### Lemmas about the staging chain -/

theorem ChainSeg_snoc : ∀ (dos dls ls : List Nat) (lm0 lm d l : Nat),
    ChainSeg lm0 dos dls ls lm →
    ChainSeg lm0 (dos ++ [lm]) (dls ++ [d]) (ls ++ [l]) (lm + d + l) := by
  intro dos
  induction dos with
  | nil =>
      intro dls ls lm0 lm d l h
      cases dls <;> cases ls <;> simp [ChainSeg] at h ⊢
      omega
  | cons dof dos ih =>
      intro dls ls lm0 lm d l h
      cases dls with
      | nil => cases ls <;> simp [ChainSeg] at h
      | cons dl dls =>
          cases ls with
          | nil => simp [ChainSeg] at h
          | cons l0 ls =>
              simp only [ChainSeg, List.cons_append] at h ⊢
              obtain ⟨h1, h2⟩ := h
              exact ⟨h1, ih dls ls _ lm d l h2⟩

theorem ChainSeg_close_zero : ∀ (dos dls ls : List Nat) (lm0 lm : Nat),
    ChainSeg lm0 dos dls ls lm →
    ChainClosed lm0 dos (dls ++ [0]) ls := by
  intro dos
  induction dos with
  | nil =>
      intro dls ls lm0 lm h
      cases dls <;> cases ls <;> simp [ChainSeg] at h ⊢
      exact Or.inl ⟨rfl, rfl⟩
  | cons dof dos ih =>
      intro dls ls lm0 lm h
      cases dls with
      | nil => cases ls <;> simp [ChainSeg] at h
      | cons dl dls =>
          cases ls with
          | nil => simp [ChainSeg] at h
          | cons l0 ls =>
              simp only [ChainSeg, ChainClosed, List.cons_append] at h ⊢
              obtain ⟨h1, h2⟩ := h
              exact ⟨h1, ih dls ls _ lm h2⟩

theorem ChainSeg_close_tail : ∀ (dos dls ls : List Nat) (lm0 lm d : Nat),
    ChainSeg lm0 dos dls ls lm →
    ChainClosed lm0 (dos ++ [lm]) (dls ++ [d]) ls := by
  intro dos
  induction dos with
  | nil =>
      intro dls ls lm0 lm d h
      cases dls <;> cases ls <;> simp [ChainSeg] at h ⊢
      exact Or.inr (by rw [h])
  | cons dof dos ih =>
      intro dls ls lm0 lm d h
      cases dls with
      | nil => cases ls <;> simp [ChainSeg] at h
      | cons dl dls =>
          cases ls with
          | nil => simp [ChainSeg] at h
          | cons l0 ls =>
              simp only [ChainSeg, ChainClosed, List.cons_append] at h ⊢
              obtain ⟨h1, h2⟩ := h
              exact ⟨h1, ih dls ls _ lm d h2⟩

theorem ChainClosed_lengths : ∀ (dos dls ls : List Nat) (lm0 : Nat),
    ChainClosed lm0 dos dls ls →
    dls.length = ls.length + 1 ∧
    (dos.length = ls.length ∨ dos.length = ls.length + 1) := by
  intro dos dls
  induction dls generalizing dos with
  | nil =>
      intro ls lm0 h
      cases dos <;> cases ls <;> simp [ChainClosed] at h
  | cons dl dls ih =>
      intro ls lm0 h
      cases ls with
      | nil =>
          cases dls with
          | nil =>
              simp only [ChainClosed] at h
              rcases h with ⟨h1, h2⟩ | h1
              · subst h1; simp
              · subst h1; simp
          | cons dl2 dls2 =>
              cases dos with
              | nil => simp [ChainClosed] at h
              | cons dof dos => simp [ChainClosed] at h
      | cons l0 ls =>
          cases dos with
          | nil => simp [ChainClosed] at h
          | cons dof dos =>
              simp only [ChainClosed] at h
              obtain ⟨h1, h2⟩ := h
              have := ih dos ls _ h2
              constructor
              · simp; omega
              · simp; omega
/-! ### Invariant preservation through one probe-loop iteration -/

theorem probeStep_inv (P : RepParams) (bs : Nat) (st : EncSt) (i lm0 : Nat)
    (hibs : i < bs)
    (hm : ∀ ev ∈ st.mtrace, EvOK P ev) (hst : StageOK lm0 st) :
    (∀ ev ∈ (probeStep P bs st i).mtrace, EvOK P ev) ∧
    StageOK lm0 (probeStep P bs st i) := by
  rcases probeStep_spec P bs st i with h | ⟨hlm, hrej, h⟩
  · rw [h]; exact ⟨hm, hst⟩
  · rw [h]
    rcases emitMatch_spec P bs st i (probeM P st) with h2 | ⟨hg, h2⟩
    · rw [h2]; exact ⟨hm, hst⟩
    · rw [h2]
      obtain ⟨hchain, hlen⟩ := hst
      have hs1 : st.last_match ≤ matchStart bs st i (probeM P st) :=
        matchStart_ge_lm bs st i (probeM P st) hlm
      have hs2 : matchStart bs st i (probeM P st) ≤ i := matchStart_le_i bs st i _
      have hs3 : i ≤ matchEnd P bs st i (probeM P st) := matchEnd_ge_i P bs st i _
      refine ⟨?_, ?_, ?_⟩
      · intro ev hev
        simp only [List.mem_append, List.mem_singleton] at hev
        rcases hev with hev | rfl
        · exact hm ev hev
        · exact emit_EvOK P bs st i (probeM P st) hlm hrej hibs hg
      · show ChainSeg lm0 (st.dataOffsets ++ [st.last_match])
          (st.datalens ++ [matchStart bs st i (probeM P st) - st.last_match])
          (st.lens ++ [matchEnd P bs st i (probeM P st) - matchStart bs st i (probeM P st)])
          (matchEnd P bs st i (probeM P st))
        have hc := ChainSeg_snoc st.dataOffsets st.datalens st.lens lm0 st.last_match
          (matchStart bs st i (probeM P st) - st.last_match)
          (matchEnd P bs st i (probeM P st) - matchStart bs st i (probeM P st)) hchain
        rwa [show st.last_match + (matchStart bs st i (probeM P st) - st.last_match) +
            (matchEnd P bs st i (probeM P st) - matchStart bs st i (probeM P st)) =
            matchEnd P bs st i (probeM P st) from by omega] at hc
      · show (st.offsets ++ [matchOff P i (probeM P st)]).length =
          (st.lens ++ [matchEnd P bs st i (probeM P st) - matchStart bs st i (probeM P st)]).length
        simp [hlen]

theorem insertStep_fields (P : RepParams) (st : EncSt) (i : Nat) :
    (insertStep P st i).buf = st.buf ∧
    (insertStep P st i).hash = st.hash ∧
    (insertStep P st i).Base = st.Base ∧
    (insertStep P st i).last_i = st.last_i ∧
    (insertStep P st i).last_match = st.last_match ∧
    (insertStep P st i).lens = st.lens ∧
    (insertStep P st i).offsets = st.offsets ∧
    (insertStep P st i).datalens = st.datalens ∧
    (insertStep P st i).dataOffsets = st.dataOffsets ∧
    (insertStep P st i).literals = st.literals ∧
    (insertStep P st i).out = st.out ∧
    (insertStep P st i).mtrace = st.mtrace ∧
    (insertStep P st i).blocks = st.blocks := by
  unfold insertStep
  split_ifs
  · simp [putEntry]
  · simp

theorem insertStep_hwr (P : RepParams) (st : EncSt) (i : Nat) (hiB : i < P.BlockSize)
    (hw : ∀ ev ∈ st.hwr, HwOK P ev) :
    ∀ ev ∈ (insertStep P st i).hwr, HwOK P ev := by
  rcases insertStep_spec P st i with ⟨heq, _⟩ | ⟨heq, hg⟩
  · rw [heq]; exact hw
  · rw [heq]
    obtain ⟨_, _, _, _, _, _, _, _, _, _, _, _, _, hhwr⟩ := putEntry_fields P st i
    rw [hhwr]
    intro ev hev
    simp only [List.mem_append, List.mem_singleton] at hev
    rcases hev with hev | rfl
    · exact hw ev hev
    · obtain ⟨a, b, hL, hk, hba⟩ := repLK_structure P
      refine ⟨?_, chksum_le _ _, hiB⟩
      rw [hk] at hg ⊢
      rwa [land_two_pow_sub_one] at hg

theorem innerStep_def (P : RepParams) (bs : Nat) (st : EncSt) (i : Nat) :
    innerStep P bs st i = hashStep P (insertStep P (probeStep P bs st i) i) i := rfl

theorem innerStep_fields (P : RepParams) (bs : Nat) (st : EncSt) (i : Nat) :
    (innerStep P bs st i).buf = st.buf ∧
    (innerStep P bs st i).Base = st.Base ∧
    (innerStep P bs st i).last_i = st.last_i ∧
    (innerStep P bs st i).out = st.out ∧
    (innerStep P bs st i).blocks = st.blocks := by
  obtain ⟨pf1, pf2, pf3, pf4, pf5, pf6, pf7, pf8⟩ := probeStep_fields P bs st i
  obtain ⟨if1, if2, if3, if4, if5, if6, if7, if8, if9, if10, if11, if12, if13⟩ :=
    insertStep_fields P (probeStep P bs st i) i
  obtain ⟨hg1, hg2, hg3, hg4, hg5, hg6, hg7, hg8, hg9, hg10, hg11, hg12, hg13, hg14⟩ :=
    hashStep_fields P (insertStep P (probeStep P bs st i) i) i
  rw [innerStep_def]
  exact ⟨by rw [hg1, if1, pf1], by rw [hg3, if3, pf4], by rw [hg4, if4, pf5],
         by rw [hg11, if11, pf6], by rw [hg13, if13, pf8]⟩

theorem innerStep_inv (P : RepParams) (bs : Nat) (st : EncSt) (i lm0 : Nat)
    (hibs : i < bs) (hbsB : bs ≤ P.BlockSize)
    (hInv : EncInv P st) (hStage : StageOK lm0 st) :
    EncInv P (innerStep P bs st i) ∧ StageOK lm0 (innerStep P bs st i) := by
  obtain ⟨hw, hm, hb⟩ := hInv
  obtain ⟨hm1, hst1⟩ := probeStep_inv P bs st i lm0 hibs hm hStage
  obtain ⟨pf1, pf2, pf3, pf4, pf5, pf6, pf7, pf8⟩ := probeStep_fields P bs st i
  have hw1 : ∀ ev ∈ (probeStep P bs st i).hwr, HwOK P ev := by rw [pf7]; exact hw
  have hb1 : ∀ b2 ∈ (probeStep P bs st i).blocks, BlkOK b2 := by rw [pf8]; exact hb
  have hw2 := insertStep_hwr P (probeStep P bs st i) i (lt_of_lt_of_le hibs hbsB) hw1
  obtain ⟨if1, if2, if3, if4, if5, if6, if7, if8, if9, if10, if11, if12, if13⟩ :=
    insertStep_fields P (probeStep P bs st i) i
  obtain ⟨hg1, hg2, hg3, hg4, hg5, hg6, hg7, hg8, hg9, hg10, hg11, hg12, hg13, hg14⟩ :=
    hashStep_fields P (insertStep P (probeStep P bs st i) i) i
  obtain ⟨hchain, hlen⟩ := hst1
  rw [innerStep_def]
  refine ⟨⟨?_, ?_, ?_⟩, ?_, ?_⟩
  · rw [hg14]; exact hw2
  · rw [hg12, if12]; exact hm1
  · rw [hg13, if13]; exact hb1
  · show ChainSeg lm0 (hashStep P (insertStep P (probeStep P bs st i) i) i).dataOffsets
      (hashStep P (insertStep P (probeStep P bs st i) i) i).datalens
      (hashStep P (insertStep P (probeStep P bs st i) i) i).lens
      (hashStep P (insertStep P (probeStep P bs st i) i) i).last_match
    rw [hg9, if9, hg8, if8, hg6, if6, hg5, if5]
    exact hchain
  · show (hashStep P (insertStep P (probeStep P bs st i) i) i).offsets.length =
      (hashStep P (insertStep P (probeStep P bs st i) i) i).lens.length
    rw [hg7, if7, hg6, if6]
    exact hlen
/-! ### Invariants through the probe loop and the skip loop -/

theorem innerLoop_snd (P : RepParams) (bs : Nat) :
    ∀ j st i, (innerLoop P bs j st i).2 = i + j := by
  intro j
  induction j with
  | zero => intro st i; rfl
  | succ j ih =>
      intro st i
      show (innerLoop P bs j (innerStep P bs st i) (i + 1)).2 = i + (j + 1)
      rw [ih]; omega

theorem innerLoop_fields (P : RepParams) (bs : Nat) :
    ∀ j st i,
      (innerLoop P bs j st i).1.buf = st.buf ∧
      (innerLoop P bs j st i).1.Base = st.Base ∧
      (innerLoop P bs j st i).1.last_i = st.last_i ∧
      (innerLoop P bs j st i).1.out = st.out ∧
      (innerLoop P bs j st i).1.blocks = st.blocks := by
  intro j
  induction j with
  | zero => intro st i; exact ⟨rfl, rfl, rfl, rfl, rfl⟩
  | succ j ih =>
      intro st i
      obtain ⟨h1, h2, h3, h4, h5⟩ := ih (innerStep P bs st i) (i + 1)
      obtain ⟨g1, g2, g3, g4, g5⟩ := innerStep_fields P bs st i
      exact ⟨h1.trans g1, h2.trans g2, h3.trans g3, h4.trans g4, h5.trans g5⟩

theorem innerLoop_inv (P : RepParams) (bs : Nat) (hbsB : bs ≤ P.BlockSize) :
    ∀ j st i lm0, i + j ≤ bs → EncInv P st → StageOK lm0 st →
      EncInv P (innerLoop P bs j st i).1 ∧ StageOK lm0 (innerLoop P bs j st i).1 := by
  intro j
  induction j with
  | zero => intro st i lm0 _ h1 h2; exact ⟨h1, h2⟩
  | succ j ih =>
      intro st i lm0 hle h1 h2
      obtain ⟨h1', h2'⟩ := innerStep_inv P bs st i lm0 (by omega) hbsB h1 h2
      exact ih (innerStep P bs st i) (i + 1) lm0 (by omega) h1' h2'

theorem skipHashes_spec (P : RepParams) :
    ∀ j st i, (skipHashes P j st i).2 = i + j ∧
      (skipHashes P j st i).1.buf = st.buf ∧
      (skipHashes P j st i).1.Base = st.Base ∧
      (skipHashes P j st i).1.last_i = st.last_i ∧
      (skipHashes P j st i).1.last_match = st.last_match ∧
      (skipHashes P j st i).1.lens = st.lens ∧
      (skipHashes P j st i).1.offsets = st.offsets ∧
      (skipHashes P j st i).1.datalens = st.datalens ∧
      (skipHashes P j st i).1.dataOffsets = st.dataOffsets ∧
      (skipHashes P j st i).1.literals = st.literals ∧
      (skipHashes P j st i).1.out = st.out ∧
      (skipHashes P j st i).1.mtrace = st.mtrace ∧
      (skipHashes P j st i).1.blocks = st.blocks ∧
      (skipHashes P j st i).1.hwr = st.hwr := by
  intro j
  induction j with
  | zero =>
      intro st i
      exact ⟨rfl, rfl, rfl, rfl, rfl, rfl, rfl, rfl, rfl, rfl, rfl, rfl, rfl, rfl⟩
  | succ j ih =>
      intro st i
      obtain ⟨hs, hrest⟩ := ih
        { st with hash := update_hash (repCPL P) st.hash (st.buf i) (st.buf (i + repL P)) }
        (i + 1)
      exact ⟨hs.trans (by omega), hrest⟩

theorem skipLoop_inv (P : RepParams) :
    ∀ fuel st i M,
      repK P ∣ i → repL P ∣ M → i ≤ M →
      (repK P ∣ (skipLoop P fuel st i).2 ∧ (skipLoop P fuel st i).2 ≤ M) ∧
      ((∀ ev ∈ st.hwr, HwOK P ev) → M ≤ P.BlockSize →
        ∀ ev ∈ (skipLoop P fuel st i).1.hwr, HwOK P ev) ∧
      ((skipLoop P fuel st i).1.buf = st.buf ∧
       (skipLoop P fuel st i).1.Base = st.Base ∧
       (skipLoop P fuel st i).1.last_i = st.last_i ∧
       (skipLoop P fuel st i).1.last_match = st.last_match ∧
       (skipLoop P fuel st i).1.lens = st.lens ∧
       (skipLoop P fuel st i).1.offsets = st.offsets ∧
       (skipLoop P fuel st i).1.datalens = st.datalens ∧
       (skipLoop P fuel st i).1.dataOffsets = st.dataOffsets ∧
       (skipLoop P fuel st i).1.literals = st.literals ∧
       (skipLoop P fuel st i).1.out = st.out ∧
       (skipLoop P fuel st i).1.mtrace = st.mtrace ∧
       (skipLoop P fuel st i).1.blocks = st.blocks) := by
  intro fuel
  induction fuel with
  | zero =>
      intro st i M hki _ hiM
      exact ⟨⟨hki, hiM⟩, fun hw _ => hw,
             rfl, rfl, rfl, rfl, rfl, rfl, rfl, rfl, rfl, rfl, rfl, rfl⟩
  | succ fuel ih =>
      intro st i M hki hLM hiM
      by_cases hc : Nat.land i (repL P - 1) ≠ 0
      · have hstep : skipLoop P (fuel + 1) st i =
            skipLoop P fuel (skipHashes P (repK P) (putEntry P st i) i).1
              (skipHashes P (repK P) (putEntry P st i) i).2 := by
          simp only [skipLoop]
          rw [if_pos hc]
        obtain ⟨hsh2, hf1, hf2, hf3, hf4, hf5, hf6, hf7, hf8, hf9, hf10, hf11, hf12, hf13⟩ :=
          skipHashes_spec P (repK P) (putEntry P st i) i
        obtain ⟨a, b, hL, hk, hba⟩ := repLK_structure P
        have hiltM : i < M := by
          rcases Nat.lt_or_ge i M with h | h
          · exact h
          · exfalso
            have hieq : i = M := by omega
            apply hc
            rw [hL, land_two_pow_sub_one, hieq]
            obtain ⟨c, hc2⟩ := hLM
            rw [hc2, hL, Nat.mul_mod_right]
        have hkM : repK P ∣ M := dvd_trans (repK_dvd_repL P) hLM
        have hik : repK P ∣ i + repK P := Dvd.dvd.add hki (dvd_refl _)
        have hikM : i + repK P ≤ M := by
          have hd : repK P ∣ M - i := Nat.dvd_sub' hkM hki
          have : repK P ≤ M - i := Nat.le_of_dvd (by omega) hd
          omega
        obtain ⟨⟨r1, r2⟩, r3, r4⟩ := ih (skipHashes P (repK P) (putEntry P st i) i).1
          (skipHashes P (repK P) (putEntry P st i) i).2 M (by rw [hsh2]; exact hik) hLM (by rw [hsh2]; exact hikM)
        obtain ⟨p1, p2, p3, p4, p5, p6, p7, p8, p9, p10, p11, p12, p13, p14⟩ :=
          putEntry_fields P st i
        rw [hstep]
        refine ⟨⟨r1, r2⟩, ?_, ?_⟩
        · intro hw hMB
          refine r3 ?_ hMB
          rw [hf13, p14]
          intro ev hev
          simp only [List.mem_append, List.mem_singleton] at hev
          rcases hev with hev | rfl
          · exact hw ev hev
          · refine ⟨?_, chksum_le _ _, show i < P.BlockSize by omega⟩
            obtain ⟨c, hc2⟩ := hki
            show i % repK P = 0
            rw [hc2, Nat.mul_mod_right]
        · exact ⟨r4.1.trans (hf1.trans p1), r4.2.1.trans (hf2.trans p3),
                 r4.2.2.1.trans (hf3.trans p4), r4.2.2.2.1.trans (hf4.trans p5),
                 r4.2.2.2.2.1.trans (hf5.trans p6), r4.2.2.2.2.2.1.trans (hf6.trans p7),
                 r4.2.2.2.2.2.2.1.trans (hf7.trans p8), r4.2.2.2.2.2.2.2.1.trans (hf8.trans p9),
                 r4.2.2.2.2.2.2.2.2.1.trans (hf9.trans p10),
                 r4.2.2.2.2.2.2.2.2.2.1.trans (hf10.trans p11),
                 r4.2.2.2.2.2.2.2.2.2.2.1.trans (hf11.trans p12),
                 r4.2.2.2.2.2.2.2.2.2.2.2.trans (hf12.trans p13)⟩
      · have hstep : skipLoop P (fuel + 1) st i = (st, i) := by
          simp only [skipLoop]
          rw [if_neg hc]
        rw [hstep]
        exact ⟨⟨hki, hiM⟩, fun hw _ => hw,
               rfl, rfl, rfl, rfl, rfl, rfl, rfl, rfl, rfl, rfl, rfl, rfl⟩
/-! ### Invariant through the outer scan loop -/

theorem outerLoop_inv (P : RepParams) (bs : Nat) (hbsB : bs ≤ P.BlockSize) :
    ∀ fuel st lm0,
      repK P ∣ st.last_i →
      EncInv P st → StageOK lm0 st →
      EncInv P (outerLoop P bs fuel st) ∧ StageOK lm0 (outerLoop P bs fuel st) ∧
      repK P ∣ (outerLoop P bs fuel st).last_i ∧
      (outerLoop P bs fuel st).buf = st.buf ∧
      (outerLoop P bs fuel st).Base = st.Base := by
  intro fuel
  induction fuel with
  | zero => intro st lm0 hk h1 h2; exact ⟨h1, h2, hk, rfl, rfl⟩
  | succ fuel ih =>
      intro st lm0 hk h1 h2
      by_cases hc : st.last_i + repL P * 2 < bs
      · have hstep : outerLoop P bs (fuel + 1) st =
            outerLoop P bs fuel
              { (skipLoop P (repL P)
                  (innerLoop P bs (repTest P) st st.last_i).1
                  (innerLoop P bs (repTest P) st st.last_i).2).1 with
                last_i := (skipLoop P (repL P)
                  (innerLoop P bs (repTest P) st st.last_i).1
                  (innerLoop P bs (repTest P) st st.last_i).2).2 } := by
          simp only [outerLoop]
          rw [if_pos hc]
        have hLpos : 1 ≤ repL P := repL_pos P
        have htest : repTest P ≤ repL P := repTest_le_repL P
        have hij : st.last_i + repTest P ≤ bs := by omega
        obtain ⟨hI1, hI2⟩ := innerLoop_inv P bs hbsB (repTest P) st st.last_i lm0 hij h1 h2
        obtain ⟨hb1, hb2, hb3, hb4, hb5⟩ := innerLoop_fields P bs (repTest P) st st.last_i
        have hsnd : (innerLoop P bs (repTest P) st st.last_i).2 = st.last_i + repTest P :=
          innerLoop_snd P bs (repTest P) st st.last_i
        have hki1 : repK P ∣ st.last_i + repTest P := Dvd.dvd.add hk (repK_dvd_repTest P)
        have hmlt : (st.last_i + repTest P) % repL P < repL P := Nat.mod_lt _ (by omega)
        have hdm := Nat.div_add_mod (st.last_i + repTest P) (repL P)
        have hMlt : st.last_i + repTest P <
            ((st.last_i + repTest P) / repL P + 1) * repL P := by
          calc st.last_i + repTest P
              = repL P * ((st.last_i + repTest P) / repL P)
                + (st.last_i + repTest P) % repL P := hdm.symm
            _ < repL P * ((st.last_i + repTest P) / repL P) + repL P :=
                Nat.add_lt_add_left hmlt _
            _ = ((st.last_i + repTest P) / repL P + 1) * repL P := by ring
        have hMub : ((st.last_i + repTest P) / repL P + 1) * repL P
            ≤ st.last_i + repTest P + repL P := by
          rw [Nat.add_one_mul]
          exact Nat.add_le_add_right (Nat.div_mul_le_self _ _) _
        obtain ⟨M, hMdvd, hMge, hMle⟩ :
            ∃ M, repL P ∣ M ∧ st.last_i + repTest P ≤ M ∧
              M ≤ st.last_i + repTest P + repL P :=
          ⟨((st.last_i + repTest P) / repL P + 1) * repL P,
           ⟨(st.last_i + repTest P) / repL P + 1, by ring⟩, le_of_lt hMlt, hMub⟩
        obtain ⟨⟨s1, s2⟩, s3, s4⟩ := skipLoop_inv P (repL P)
          (innerLoop P bs (repTest P) st st.last_i).1
          (innerLoop P bs (repTest P) st st.last_i).2
          M
          (by rw [hsnd]; exact hki1)
          hMdvd
          (by rw [hsnd]; exact hMge)
        obtain ⟨sf1, sf2, sf3, sf4, sf5, sf6, sf7, sf8, sf9, sf10, sf11, sf12⟩ := s4
        obtain ⟨hE1, hE2, hE3⟩ := hI1
        have hhwrOK := s3 hE1 (by omega)
        have hEnc : EncInv P
            { (skipLoop P (repL P)
                (innerLoop P bs (repTest P) st st.last_i).1
                (innerLoop P bs (repTest P) st st.last_i).2).1 with
              last_i := (skipLoop P (repL P)
                (innerLoop P bs (repTest P) st st.last_i).1
                (innerLoop P bs (repTest P) st st.last_i).2).2 } := by
          refine ⟨hhwrOK, ?_, ?_⟩
          · show ∀ ev ∈ (skipLoop P (repL P)
              (innerLoop P bs (repTest P) st st.last_i).1
              (innerLoop P bs (repTest P) st st.last_i).2).1.mtrace, EvOK P ev
            rw [sf11]; exact hE2
          · show ∀ b2 ∈ (skipLoop P (repL P)
              (innerLoop P bs (repTest P) st st.last_i).1
              (innerLoop P bs (repTest P) st st.last_i).2).1.blocks, BlkOK b2
            rw [sf12]; exact hE3
        have hStage : StageOK lm0
            { (skipLoop P (repL P)
                (innerLoop P bs (repTest P) st st.last_i).1
                (innerLoop P bs (repTest P) st st.last_i).2).1 with
              last_i := (skipLoop P (repL P)
                (innerLoop P bs (repTest P) st st.last_i).1
                (innerLoop P bs (repTest P) st st.last_i).2).2 } := by
          obtain ⟨hch, hln⟩ := hI2
          constructor
          · show ChainSeg lm0
              (skipLoop P (repL P)
                (innerLoop P bs (repTest P) st st.last_i).1
                (innerLoop P bs (repTest P) st st.last_i).2).1.dataOffsets
              (skipLoop P (repL P)
                (innerLoop P bs (repTest P) st st.last_i).1
                (innerLoop P bs (repTest P) st st.last_i).2).1.datalens
              (skipLoop P (repL P)
                (innerLoop P bs (repTest P) st st.last_i).1
                (innerLoop P bs (repTest P) st st.last_i).2).1.lens
              (skipLoop P (repL P)
                (innerLoop P bs (repTest P) st st.last_i).1
                (innerLoop P bs (repTest P) st st.last_i).2).1.last_match
            rw [sf8, sf7, sf5, sf4]
            exact hch
          · show (skipLoop P (repL P)
              (innerLoop P bs (repTest P) st st.last_i).1
              (innerLoop P bs (repTest P) st st.last_i).2).1.offsets.length
              = (skipLoop P (repL P)
                (innerLoop P bs (repTest P) st st.last_i).1
                (innerLoop P bs (repTest P) st st.last_i).2).1.lens.length
            rw [sf6, sf5]
            exact hln
        obtain ⟨o1, o2, o3, o4, o5⟩ := ih _ lm0 s1 hEnc hStage
        rw [hstep]
        exact ⟨o1, o2, o3, o4.trans (sf1.trans hb1), o5.trans (sf2.trans hb2)⟩
      · have hstep : outerLoop P bs (fuel + 1) st = st := by
          simp only [outerLoop]
          rw [if_neg hc]
        rw [hstep]
        exact ⟨h1, h2, hk, rfl, rfl⟩
/-! ### Invariant through one full cycle -/

theorem scanSize_le (P : RepParams) (X : List Nat) (consumed : Nat) (FT : Bool)
    (base : Nat) : scanSize P X consumed FT base ≤ P.BlockSize - base :=
  le_trans (min_le_left _ _) (min_le_left _ _)

theorem scanRead_fields (P : RepParams) (X : List Nat) (consumed : Nat) (FT : Bool)
    (st : EncSt) (Size : Nat) :
    (scanRead P X consumed FT st Size).Base = st.Base ∧
    (scanRead P X consumed FT st Size).last_i = st.last_i ∧
    (scanRead P X consumed FT st Size).last_match = st.last_match ∧
    (scanRead P X consumed FT st Size).hwr = st.hwr ∧
    (scanRead P X consumed FT st Size).mtrace = st.mtrace ∧
    (scanRead P X consumed FT st Size).blocks = st.blocks := by
  unfold scanRead
  split_ifs <;> exact ⟨rfl, rfl, rfl, rfl, rfl, rfl⟩

theorem scanInit_fields (P : RepParams) (st : EncSt) (Size : Nat) :
    (scanInit P st Size).Base = st.Base ∧
    (scanInit P st Size).last_i = st.last_i ∧
    (scanInit P st Size).last_match = st.last_match ∧
    (scanInit P st Size).hwr = st.hwr ∧
    (scanInit P st Size).mtrace = st.mtrace ∧
    (scanInit P st Size).blocks = st.blocks ∧
    (scanInit P st Size).lens = [] ∧
    (scanInit P st Size).offsets = [] ∧
    (scanInit P st Size).datalens = [] ∧
    (scanInit P st Size).dataOffsets = [] := by
  unfold scanInit
  split_ifs <;> exact ⟨rfl, rfl, rfl, rfl, rfl, rfl, rfl, rfl, rfl, rfl⟩

theorem scanPost_fields (P : RepParams) (st : EncSt) (Size : Nat) :
    (scanPost P st Size).Base = st.Base + Size ∧
    (scanPost P st Size).hwr = st.hwr ∧
    (scanPost P st Size).mtrace = st.mtrace ∧
    (scanPost P st Size).blocks = st.blocks ∧
    (scanPost P st Size).dataOffsets = st.dataOffsets ∧
    (scanPost P st Size).datalens = st.datalens ∧
    (scanPost P st Size).lens = st.lens ∧
    (scanPost P st Size).offsets = st.offsets ∧
    (scanPost P st Size).last_match = st.last_match ∧
    ((scanPost P st Size).Base = P.BlockSize ∨ (scanPost P st Size).last_i = st.last_i) := by
  simp only [scanPost]
  split_ifs with h
  · exact ⟨rfl, rfl, rfl, rfl, rfl, rfl, rfl, rfl, rfl, Or.inl h⟩
  · exact ⟨rfl, rfl, rfl, rfl, rfl, rfl, rfl, rfl, rfl, Or.inr rfl⟩

theorem EncInv_congr (P : RepParams) (s t : EncSt) (h1 : s.hwr = t.hwr)
    (h2 : s.mtrace = t.mtrace) (h3 : s.blocks = t.blocks) (h : EncInv P t) :
    EncInv P s := by
  obtain ⟨a, b, c⟩ := h
  exact ⟨by rw [h1]; exact a, by rw [h2]; exact b, by rw [h3]; exact c⟩

theorem StageOK_congr (lm0 : Nat) (s t : EncSt) (h1 : s.dataOffsets = t.dataOffsets)
    (h2 : s.datalens = t.datalens) (h3 : s.lens = t.lens) (h4 : s.last_match = t.last_match)
    (h5 : s.offsets = t.offsets) (h : StageOK lm0 t) : StageOK lm0 s := by
  obtain ⟨a, b⟩ := h
  exact ⟨by rw [h1, h2, h3, h4]; exact a, by rw [h5, h3]; exact b⟩

theorem encCycleScan_inv (P : RepParams) (X : List Nat) (consumed : Nat) (FT : Bool)
    (st : EncSt) (hB : st.Base ≤ P.BlockSize) (hk : repK P ∣ st.last_i)
    (hInv : EncInv P st) :
    EncInv P (encCycleScan P X consumed FT st).1 ∧
    (encCycleScan P X consumed FT st).1.Base ≤ P.BlockSize ∧
    ((encCycleScan P X consumed FT st).2 = 0 →
      (encCycleScan P X consumed FT st).1.last_i = st.last_i) ∧
    ((encCycleScan P X consumed FT st).2 ≠ 0 →
      StageOK st.last_match (encCycleScan P X consumed FT st).1 ∧
      ((encCycleScan P X consumed FT st).1.Base = P.BlockSize ∨
        repK P ∣ (encCycleScan P X consumed FT st).1.last_i)) := by
  obtain ⟨r1, r2, r3, r4, r5, r6⟩ :=
    scanRead_fields P X consumed FT st (scanSize P X consumed FT st.Base)
  simp only [encCycleScan]
  by_cases hS : scanSize P X consumed FT st.Base = 0
  · rw [if_pos hS]
    refine ⟨EncInv_congr P _ st r4 r5 r6 hInv, ?_, ?_, ?_⟩
    · show (scanRead P X consumed FT st (scanSize P X consumed FT st.Base)).Base ≤ P.BlockSize
      rw [r1]; exact hB
    · intro _
      exact r2
    · intro h
      exact absurd rfl h
  · rw [if_neg hS]
    obtain ⟨i1, i2, i3, i4, i5, i6, i7, i8, i9, i10⟩ :=
      scanInit_fields P (scanRead P X consumed FT st (scanSize P X consumed FT st.Base))
        (scanSize P X consumed FT st.Base)
    have hSle : scanSize P X consumed FT st.Base ≤ P.BlockSize - st.Base :=
      scanSize_le P X consumed FT st.Base
    have hbase4 : (scanInit P (scanRead P X consumed FT st (scanSize P X consumed FT st.Base))
        (scanSize P X consumed FT st.Base)).Base = st.Base := i1.trans r1
    have hbsB : (scanInit P (scanRead P X consumed FT st (scanSize P X consumed FT st.Base))
        (scanSize P X consumed FT st.Base)).Base + scanSize P X consumed FT st.Base
        ≤ P.BlockSize := by
      rw [hbase4]; omega
    have hk4 : repK P ∣ (scanInit P (scanRead P X consumed FT st
        (scanSize P X consumed FT st.Base)) (scanSize P X consumed FT st.Base)).last_i := by
      rw [i2, r2]; exact hk
    have hInv4 : EncInv P (scanInit P (scanRead P X consumed FT st
        (scanSize P X consumed FT st.Base)) (scanSize P X consumed FT st.Base)) :=
      EncInv_congr P _ st (i4.trans r4) (i5.trans r5) (i6.trans r6) hInv
    have hStage4 : StageOK st.last_match (scanInit P (scanRead P X consumed FT st
        (scanSize P X consumed FT st.Base)) (scanSize P X consumed FT st.Base)) := by
      constructor
      · rw [i10, i9, i7, i3, r3]
        show st.last_match = st.last_match
        rfl
      · rw [i8, i7]
    obtain ⟨o1, o2, o3, o4, o5⟩ := outerLoop_inv P
      ((scanInit P (scanRead P X consumed FT st (scanSize P X consumed FT st.Base))
        (scanSize P X consumed FT st.Base)).Base + scanSize P X consumed FT st.Base)
      hbsB
      ((scanInit P (scanRead P X consumed FT st (scanSize P X consumed FT st.Base))
        (scanSize P X consumed FT st.Base)).Base + scanSize P X consumed FT st.Base + 1)
      (scanInit P (scanRead P X consumed FT st (scanSize P X consumed FT st.Base))
        (scanSize P X consumed FT st.Base))
      st.last_match hk4 hInv4 hStage4
    obtain ⟨p1, p2, p3, p4, p5, p6, p7, p8, p9, p10⟩ := scanPost_fields P
      (outerLoop P
        ((scanInit P (scanRead P X consumed FT st (scanSize P X consumed FT st.Base))
          (scanSize P X consumed FT st.Base)).Base + scanSize P X consumed FT st.Base)
        ((scanInit P (scanRead P X consumed FT st (scanSize P X consumed FT st.Base))
          (scanSize P X consumed FT st.Base)).Base + scanSize P X consumed FT st.Base + 1)
        (scanInit P (scanRead P X consumed FT st (scanSize P X consumed FT st.Base))
          (scanSize P X consumed FT st.Base)))
      (scanSize P X consumed FT st.Base)
    obtain ⟨e1, e2, e3⟩ := o1
    refine ⟨⟨by rw [p2]; exact e1, by rw [p3]; exact e2, by rw [p4]; exact e3⟩, ?_, ?_, ?_⟩
    · rw [p1, o5, hbase4]
      omega
    · intro h
      exact absurd h hS
    · intro _
      refine ⟨StageOK_congr st.last_match _ _ p5 p6 p7 p9 p8 o2, ?_⟩
      rcases p10 with h | h
      · exact Or.inl h
      · exact Or.inr (by rw [h]; exact o3)
theorem mem_snoc_OK {α : Type} (Q : α → Prop) (l : List α) (r : α)
    (h : ∀ b ∈ l, Q b) (hr : Q r) : ∀ b ∈ l ++ [r], Q b := by
  intro b hb
  rcases List.mem_append.1 hb with hb | hb
  · exact h b hb
  · rw [List.mem_singleton] at hb
    subst hb
    exact hr

theorem encCycleEmit_inv (P : RepParams) (lm0 : Nat) (st : EncSt)
    (hInv : EncInv P st) (hStage : StageOK lm0 st) (hB : st.Base ≤ P.BlockSize)
    (hli : st.Base = P.BlockSize ∨ repK P ∣ st.last_i) :
    EncInv P (encCycleEmit P lm0 st) ∧
    (encCycleEmit P lm0 st).Base ≤ P.BlockSize ∧
    repK P ∣ (encCycleEmit P lm0 st).last_i := by
  obtain ⟨hw, hm, hb⟩ := hInv
  obtain ⟨hch, hln⟩ := hStage
  have hrec0 : BlkOK ⟨lm0, st.lens, st.offsets, st.datalens ++ [0], st.dataOffsets⟩ :=
    ⟨hln, ChainSeg_close_zero st.dataOffsets st.datalens st.lens lm0 st.last_match hch⟩
  have hrec1 : BlkOK ⟨lm0, st.lens, st.offsets,
      st.datalens ++ [st.last_i - st.last_match], st.dataOffsets ++ [st.last_match]⟩ :=
    ⟨hln, ChainSeg_close_tail st.dataOffsets st.datalens st.lens lm0 st.last_match
      (st.last_i - st.last_match) hch⟩
  simp only [encCycleEmit]
  split_ifs with h1 h2 h3
  · exact ⟨⟨hw, hm, mem_snoc_OK BlkOK st.blocks _ hb hrec0⟩,
           Nat.zero_le _, dvd_zero _⟩
  · have h2' : ¬ st.Base = P.BlockSize := h2
    refine ⟨⟨hw, hm, mem_snoc_OK BlkOK st.blocks _ hb hrec0⟩, hB, ?_⟩
    rcases hli with h | h
    · exact absurd h h2'
    · exact h
  · exact ⟨⟨hw, hm, mem_snoc_OK BlkOK st.blocks _ hb hrec1⟩,
           Nat.zero_le _, dvd_zero _⟩
  · have h3' : ¬ st.Base = P.BlockSize := h3
    refine ⟨⟨hw, hm, mem_snoc_OK BlkOK st.blocks _ hb hrec1⟩, hB, ?_⟩
    rcases hli with h | h
    · exact absurd h h3'
    · exact h

theorem encCycle_inv (P : RepParams) (X : List Nat) (consumed : Nat) (FT : Bool)
    (st : EncSt) (hB : st.Base ≤ P.BlockSize) (hk : repK P ∣ st.last_i)
    (hInv : EncInv P st) :
    EncInv P (encCycle P X consumed FT st).1 ∧
    (encCycle P X consumed FT st).1.Base ≤ P.BlockSize ∧
    repK P ∣ (encCycle P X consumed FT st).1.last_i := by
  obtain ⟨s1, s2, s3, s4⟩ := encCycleScan_inv P X consumed FT st hB hk hInv
  simp only [encCycle]
  by_cases hz : (encCycleScan P X consumed FT st).2 = 0
  · rw [if_pos hz]
    exact ⟨s1, s2, by rw [s3 hz]; exact hk⟩
  · rw [if_neg hz]
    obtain ⟨g1, g2⟩ := s4 hz
    exact encCycleEmit_inv P st.last_match (encCycleScan P X consumed FT st).1 s1 g1 s2 g2

theorem mainLoop_inv (P : RepParams) (X : List Nat) :
    ∀ fuel consumed FT st, st.Base ≤ P.BlockSize → repK P ∣ st.last_i → EncInv P st →
      EncInv P (mainLoop P X fuel consumed FT st) := by
  intro fuel
  induction fuel with
  | zero => intro _ _ st _ _ h; exact h
  | succ fuel ih =>
      intro consumed FT st hB hk hInv
      obtain ⟨c1, c2, c3⟩ := encCycle_inv P X consumed FT st hB hk hInv
      by_cases hz : (encCycle P X consumed FT st).2 = 0
      · have hstep : mainLoop P X (fuel + 1) consumed FT st =
            (encCycle P X consumed FT st).1 := by
          simp only [mainLoop]; rw [if_pos hz]
        rw [hstep]; exact c1
      · have hstep : mainLoop P X (fuel + 1) consumed FT st =
            mainLoop P X fuel (consumed + (encCycle P X consumed FT st).2) false
              (encCycle P X consumed FT st).1 := by
          simp only [mainLoop]; rw [if_neg hz]
        rw [hstep]
        exact ih _ _ _ c2 c3 c1

theorem encInit_inv (P : RepParams) : EncInv P encInit :=
  ⟨fun ev hev => absurd hev (List.not_mem_nil ev),
   fun ev hev => absurd hev (List.not_mem_nil ev),
   fun b hb => absurd hb (List.not_mem_nil b)⟩

/-- The master trace invariant of the whole compressor run: every
recorded hash-table write, emitted match and emitted block of
`rep_compress` is well-formed with respect to the clamped parameters. -/
theorem repFinale_ghost (st : EncSt) :
    (repFinale st).hwr = st.hwr ∧ (repFinale st).mtrace = st.mtrace ∧
    (repFinale st).blocks = st.blocks := ⟨rfl, rfl, rfl⟩

theorem rep_compress_inv (P0 : RepParams) (X : List Nat) :
    EncInv (clampP P0) (rep_compress P0 X) := by
  have h := mainLoop_inv (clampP P0) X (X.length + 2) 0 true encInit
    (Nat.zero_le _) (dvd_zero _) (encInit_inv (clampP P0))
  obtain ⟨g1, g2, g3⟩ :=
    repFinale_ghost (mainLoop (clampP P0) X (X.length + 2) 0 true encInit)
  simp only [rep_compress]
  exact EncInv_congr (clampP P0) _ _ g1 g2 g3 h
/-! ### Bounds on the derived power-of-two parameters (claim C7) -/

theorem rupLoop_le (n c : Nat) (hn : n ≤ 2 ^ c) :
    ∀ fuel t, t ≤ c → rupLoop 2 n fuel (2 ^ t) ≤ 2 ^ c := by
  intro fuel
  induction fuel with
  | zero => intro t ht; exact Nat.pow_le_pow_right (by norm_num) ht
  | succ f ih =>
      intro t ht
      show (if n ≤ 2 ^ t then 2 ^ t else rupLoop 2 n f (2 ^ t * 2)) ≤ 2 ^ c
      by_cases h : n ≤ 2 ^ t
      · rw [if_pos h]
        exact Nat.pow_le_pow_right (by norm_num) ht
      · rw [if_neg h]
        have htc : t < c := by
          by_contra hcon
          have heq : t = c := by omega
          subst heq
          exact h hn
        rw [show (2:Nat) ^ t * 2 = 2 ^ (t + 1) from (pow_succ 2 t).symm]
        exact ih (t + 1) (by omega)

theorem roundup_le_pow (n c : Nat) (hn : n ≤ 2 ^ c) :
    roundup_to_power_of n 2 ≤ 2 ^ c := by
  have h := rupLoop_le n c hn n 0 (Nat.zero_le c)
  simpa [roundup_to_power_of] using h

theorem clampP_SmallestLen_le (P : RepParams) :
    (clampP P).SmallestLen ≤ P.SmallestLen := by
  unfold clampP
  split_ifs with h
  · show P.MinMatchLen ≤ P.SmallestLen
    omega
  · exact le_rfl

/-- Claim C3: every match record emitted by `rep_compress` (stated via the
ghost trace) has `len = end - start`, length at least `min_len` when the
distance `i - m` is less than `barrier`, and at least `smallest_len`
otherwise.  The hypothesis `smallest_len ≤ min_len` keeps the parameters
inside the documented constraint, so the entry clamp is the identity. -/
theorem C3_match_lengths (P : RepParams) (X : List Nat)
    (hPS : P.SmallestLen ≤ P.MinMatchLen) :
    ∀ ev ∈ (rep_compress P X).mtrace,
      ev.len = ev.e - ev.s ∧
      ((ev.i : Int) - (ev.m : Int) < (P.Barrier : Int) → P.MinMatchLen ≤ ev.len) ∧
      (¬ ((ev.i : Int) - (ev.m : Int) < (P.Barrier : Int)) → P.SmallestLen ≤ ev.len) := by
  have hcl : clampP P = P := by
    unfold clampP
    rw [if_neg (by omega)]
  intro ev hev
  obtain ⟨_, _, _, _, _, _, hlen, hreq⟩ := (rep_compress_inv P X).2.1 ev hev
  rw [hcl] at hreq
  refine ⟨hlen, ?_, ?_⟩
  · intro hb; rw [if_pos hb] at hreq; exact hreq
  · intro hb; rw [if_neg hb] at hreq; exact hreq

/-- Witness for C3: `smallest_len = min_len = 2`, a periodic 16-byte input;
the single emitted match is `⟨i=5, m=1, bs=16, lm=0, s=4, e=16, off=4,
len=12⟩`, at distance `4 < barrier` with length `12 ≥ min_len`. -/
theorem C3_witness :
    (⟨64, 0, 2, 1024, 2, 4, 1⟩ : RepParams).SmallestLen
      ≤ (⟨64, 0, 2, 1024, 2, 4, 1⟩ : RepParams).MinMatchLen ∧
    (⟨5, 1, 16, 0, 4, 16, 4, 12⟩ : MatchEv) ∈
      (rep_compress ⟨64, 0, 2, 1024, 2, 4, 1⟩
        [0,1,2,3,0,1,2,3,0,1,2,3,0,1,2,3]).mtrace ∧
    ((12 : Nat) = 16 - 4 ∧
     (((5 : Nat) : Int) - ((1 : Nat) : Int) < (((1024 : Nat)) : Int) →
        (2 : Nat) ≤ 12) ∧
     (¬ (((5 : Nat) : Int) - ((1 : Nat) : Int) < (((1024 : Nat)) : Int)) →
        (2 : Nat) ≤ 12)) :=
  ⟨by decide, by decide,
   C3_match_lengths ⟨64, 0, 2, 1024, 2, 4, 1⟩
     [0,1,2,3,0,1,2,3,0,1,2,3,0,1,2,3] (by decide)
     ⟨5, 1, 16, 0, 4, 16, 4, 12⟩ (by decide)⟩

/-- Claim C4: no emitted match has its candidate source inside the current
cycle's just-read window (`¬ (i ≤ m ∧ m < Base+Size)`, with `bs = Base+Size`
recorded at probe time), and the committed region stays between
`last_match` and the read boundary: `lm ≤ start ≤ i ≤ end ≤ bs`. -/
theorem C4_no_self_window_match (P : RepParams) (X : List Nat) :
    ∀ ev ∈ (rep_compress P X).mtrace,
      ¬ (ev.i ≤ ev.m ∧ ev.m < ev.bs) ∧
      ev.lm ≤ ev.s ∧ ev.s ≤ ev.i ∧ ev.i ≤ ev.e ∧ ev.e ≤ ev.bs := by
  intro ev hev
  obtain ⟨h1, h2, h3, h4, h5, h6, _, _⟩ := (rep_compress_inv P X).2.1 ev hev
  exact ⟨h2, h3, h4, h5, h6⟩

/-- Witness for C4 at the same concrete run as the C3 witness. -/
theorem C4_witness :
    (⟨5, 1, 16, 0, 4, 16, 4, 12⟩ : MatchEv) ∈
      (rep_compress ⟨64, 0, 2, 1024, 2, 4, 1⟩
        [0,1,2,3,0,1,2,3,0,1,2,3,0,1,2,3]).mtrace ∧
    (¬ ((5 : Nat) ≤ 1 ∧ (1 : Nat) < 16) ∧
     (0 : Nat) ≤ 4 ∧ (4 : Nat) ≤ 5 ∧ (5 : Nat) ≤ 16 ∧ (16 : Nat) ≤ 16) :=
  ⟨by decide,
   C4_no_self_window_match ⟨64, 0, 2, 1024, 2, 4, 1⟩
     [0,1,2,3,0,1,2,3,0,1,2,3,0,1,2,3]
     ⟨5, 1, 16, 0, 4, 16, 4, 12⟩ (by decide)⟩

/-- Claim C5: every emitted block is a disjoint ordered cover: it carries
exactly `num + 1` `datalens` entries, `num` offsets, and the records chain —
each literal run starts at the block's starting `last_match` cursor, each
match starts where its literal run ends, and the cursor advances by
`datalen + len` per record (`ChainClosed`), the zero-length literal record
being appended when `last_match > last_i`. -/
theorem C5_partition (P : RepParams) (X : List Nat) :
    ∀ b ∈ (rep_compress P X).blocks,
      b.offsets.length = b.lens.length ∧
      b.datalens.length = b.lens.length + 1 ∧
      ChainClosed b.lm0 b.dataOffsets b.datalens b.lens := by
  intro b hb
  obtain ⟨h1, h2⟩ := (rep_compress_inv P X).2.2 b hb
  exact ⟨h1, (ChainClosed_lengths _ _ _ _ h2).1, h2⟩

/-- Witness for C5: the single block of the C3 witness run,
`⟨lm0 = 0, lens = [12], offsets = [4], datalens = [4, 0],
dataOffsets = [0]⟩`. -/
theorem C5_witness :
    (⟨0, [12], [4], [4, 0], [0]⟩ : BlockRec) ∈
      (rep_compress ⟨64, 0, 2, 1024, 2, 4, 1⟩
        [0,1,2,3,0,1,2,3,0,1,2,3,0,1,2,3]).blocks ∧
    (([4] : List Nat).length = ([12] : List Nat).length ∧
     ([4, 0] : List Nat).length = ([12] : List Nat).length + 1 ∧
     ChainClosed 0 [0] [4, 0] [12]) :=
  ⟨by decide,
   C5_partition ⟨64, 0, 2, 1024, 2, 4, 1⟩
     [0,1,2,3,0,1,2,3,0,1,2,3,0,1,2,3]
     ⟨0, [12], [4], [4, 0], [0]⟩ (by decide)⟩

/-- Claim C7: every hash-table write of `rep_compress` happens at a scan
position divisible by `k` (both the probe-loop insert and the skip-loop
insert), so the stored packed entry `i + chksum` equals `i | chksum`, and
masking with `~(k-1+...)`, i.e. `land` with `2^32 - k`, recovers exactly
the inserted position.  `block_size ≤ 2^31` and `smallest_len ≤ 2^32`
reflect the 32-bit pointer arithmetic of the source. -/
theorem C7_hash_table_packing (P : RepParams) (X : List Nat)
    (hBS : P.BlockSize ≤ 2 ^ 31) (hS : P.SmallestLen ≤ 2 ^ 32) :
    ∀ ev ∈ (rep_compress P X).hwr,
      ev.i % repK (clampP P) = 0 ∧
      ev.i + ev.chk = Nat.lor ev.i ev.chk ∧
      Nat.land (ev.i + ev.chk) (2 ^ 32 - repK (clampP P)) = ev.i := by
  obtain ⟨a, hL⟩ := repL_pow2 (clampP P)
  have hk : repK (clampP P) = 2 ^ ((a + 1) / 2) := by
    unfold repK
    rw [hL, ← pow_succ, sqrtb_two_pow]
  have hS2 : (clampP P).SmallestLen / 2 ≤ 2 ^ 31 := by
    have h1 : (clampP P).SmallestLen ≤ P.SmallestLen := clampP_SmallestLen_le P
    have h2 : (2 : Nat) ^ 32 = 2 ^ 31 * 2 := by norm_num
    omega
  have hLle : repL (clampP P) ≤ 2 ^ 31 := roundup_le_pow _ 31 hS2
  have ha : a ≤ 31 := by
    rw [hL] at hLle
    exact (Nat.pow_le_pow_iff_right (by norm_num)).1 hLle
  have hb16 : (a + 1) / 2 ≤ 16 := by omega
  have hkle : repK (clampP P) ≤ 2 ^ 16 := by
    rw [hk]
    exact Nat.pow_le_pow_right (by norm_num) hb16
  have hkpos : 1 ≤ repK (clampP P) := repK_pos _
  intro ev hev
  obtain ⟨h1, h2, h3⟩ := (rep_compress_inv P X).1 ev hev
  have hchk : ev.chk < repK (clampP P) := by omega
  rw [hk] at h1 hchk
  have hiB : ev.i < 2 ^ 31 := by
    rw [clampP_BlockSize] at h3
    omega
  have hlt : ev.i + ev.chk < 2 ^ 32 := by
    have h16 : ev.chk < 2 ^ 16 := by
      rw [← hk] at hchk
      omega
    have hpows : (2:Nat) ^ 31 + 2 ^ 16 ≤ 2 ^ 32 := by norm_num
    omega
  refine ⟨by rw [hk]; exact h1, ?_, ?_⟩
  · exact add_eq_lor_of_aligned ((a + 1) / 2) ev.i ev.chk h1 hchk
  · rw [hk]
    exact land_mask_recover ((a + 1) / 2) ev.i ev.chk (by omega) h1 hchk hlt

/-- Witness for C7 at the C3 witness run: the first hash-table write is at
position `0` with checksum `0` (`k = 1` for these parameters). -/
theorem C7_witness :
    (⟨64, 0, 2, 1024, 2, 4, 1⟩ : RepParams).BlockSize ≤ 2 ^ 31 ∧
    (⟨64, 0, 2, 1024, 2, 4, 1⟩ : RepParams).SmallestLen ≤ 2 ^ 32 ∧
    (⟨0, 0⟩ : HashWr) ∈
      (rep_compress ⟨64, 0, 2, 1024, 2, 4, 1⟩
        [0,1,2,3,0,1,2,3,0,1,2,3,0,1,2,3]).hwr ∧
    ((0 : Nat) % repK (clampP ⟨64, 0, 2, 1024, 2, 4, 1⟩) = 0 ∧
     (0 : Nat) + 0 = Nat.lor 0 0 ∧
     Nat.land ((0 : Nat) + 0) (2 ^ 32 - repK (clampP ⟨64, 0, 2, 1024, 2, 4, 1⟩)) = 0) :=
  ⟨by decide, by decide, by decide,
   C7_hash_table_packing ⟨64, 0, 2, 1024, 2, 4, 1⟩
     [0,1,2,3,0,1,2,3,0,1,2,3,0,1,2,3] (by decide) (by decide)
     ⟨0, 0⟩ (by decide)⟩
/-! ### No match is emitted when the window has no duplication (claim C9) -/

theorem TableOK_congr (P : RepParams) (bnd : Nat) (s t : EncSt)
    (h : s.hasharr = t.hasharr) (ht : TableOK P bnd t) : TableOK P bnd s := by
  intro idx
  rw [h]
  exact ht idx

theorem TableOK_mono (P : RepParams) (bnd bnd' : Nat) (st : EncSt)
    (h : bnd ≤ bnd') (ht : TableOK P bnd st) : TableOK P bnd' st := by
  intro idx
  rcases ht idx with h0 | ⟨ip, c, h1, h2, h3, h4⟩
  · exact Or.inl h0
  · exact Or.inr ⟨ip, c, h1, h2, h3, by omega⟩

theorem emitMatch_of_guard_fail (P : RepParams) (bs : Nat) (st : EncSt) (i m : Nat)
    (h : ¬ (reqLen P i m ≤ matchEnd P bs st i m - matchStart bs st i m)) :
    emitMatch P bs st i m = st := by
  unfold emitMatch
  rw [if_neg h]

theorem probeStep_noemit (P : RepParams) (bs : Nat) (st : EncSt) (i b : Nat)
    (hb : repK P = 2 ^ b) (hb16 : b ≤ 16)
    (hBS : P.BlockSize ≤ 2 ^ 31) (hbsB : bs ≤ P.BlockSize) (hibs : i < bs)
    (hPS : P.SmallestLen ≤ P.MinMatchLen)
    (hnd : BufNoDup P.SmallestLen bs st.buf)
    (hTab : TableOK P i st) :
    probeStep P bs st i = st := by
  unfold probeStep
  split_ifs with h1 h2 h3
  · rfl
  · -- the emission branch: the extension guard must fail
    rcases hTab (Nat.land st.hash (repHashMask P)) with hz | ⟨ip, c, hEq, hipk, hck, hiplt⟩
    · exact absurd hz h2.1
    · rw [hb] at hipk hck
      have hk16 : (2:Nat) ^ b ≤ 2 ^ 16 := Nat.pow_le_pow_right (by norm_num) hb16
      have hpows : (2:Nat) ^ 31 + 2 ^ 16 ≤ 2 ^ 32 := by norm_num
      have hlt32 : ip + c < 2 ^ 32 := by omega
      have hm : probeM P st = ip := by
        show Nat.land (st.hasharr (Nat.land st.hash (repHashMask P))) (2 ^ 32 - repK P) = ip
        rw [hEq, hb]
        exact land_mask_recover b ip c (by omega) hipk hck hlt32
      have him : ip < i := hiplt
      have hguard : ¬ (reqLen P i (probeM P st) ≤
          matchEnd P bs st i (probeM P st) - matchStart bs st i (probeM P st)) := by
        rw [hm]
        intro hg
        have hlow_le_i : max st.last_match (matchLowBound bs i ip) ≤ i :=
          max_le h1 (matchLowBound_le bs i ip)
        have hdlow : i - ip ≤ max st.last_match (matchLowBound bs i ip) := by
          have hmb : matchLowBound bs i ip = i - ip := by
            unfold matchLowBound
            rw [if_pos him]
          rw [← hmb]
          exact le_max_right _ _
        have hsge : max st.last_match (matchLowBound bs i ip) ≤ matchStart bs st i ip :=
          find_match_start_ge st.buf i ip _ hlow_le_i
        have hsle : matchStart bs st i ip ≤ i := matchStart_le_i bs st i ip
        have hie : i ≤ matchEnd P bs st i ip := matchEnd_ge_i P bs st i ip
        have hebs : matchEnd P bs st i ip ≤ bs := matchEnd_le_bs P bs st i ip (by omega)
        have hreqS : P.SmallestLen ≤ reqLen P i ip := by
          unfold reqLen
          split_ifs
          · exact hPS
          · exact le_rfl
        have hslen : matchStart bs st i ip + P.SmallestLen ≤ matchEnd P bs st i ip := by
          omega
        have hbyte1 : ∀ t, matchStart bs st i ip ≤ t → t < i →
            st.buf (t - (i - ip)) = st.buf t := by
          intro t h1t h2t
          exact find_match_start_eq st.buf (i - ip) i ip
            (max st.last_match (matchLowBound bs i ip)) (by omega) hdlow t h1t h2t
        have hbyte2 : ∀ t, i ≤ t → t < matchEnd P bs st i ip →
            st.buf (t - (i - ip)) = st.buf t := by
          intro t h1t h2t
          exact find_match_end_loop_eq st.buf (i - ip)
            (min bs (matchHighBound P i ip) - i) ip i (by omega) t h1t h2t
        obtain ⟨j, hj, hjne⟩ := hnd (matchStart bs st i ip - (i - ip))
          (matchStart bs st i ip) (by omega) (by omega)
        apply hjne
        have ht2 : matchStart bs st i ip + j < matchEnd P bs st i ip := by omega
        have heq2 : st.buf (matchStart bs st i ip + j - (i - ip))
            = st.buf (matchStart bs st i ip + j) := by
          rcases Nat.lt_or_ge (matchStart bs st i ip + j) i with hc2 | hc2
          · exact hbyte1 _ (Nat.le_add_right _ _) hc2
          · exact hbyte2 _ hc2 ht2
        rw [show matchStart bs st i ip - (i - ip) + j
              = matchStart bs st i ip + j - (i - ip) from by omega]
        exact heq2
      exact emitMatch_of_guard_fail P bs st i (probeM P st) hguard
  · rfl
  · rfl

theorem putEntry_tab (P : RepParams) (st : EncSt) (i b : Nat)
    (hb : repK P = 2 ^ b) (hb16 : b ≤ 16) (hi31 : i < 2 ^ 31)
    (hik : i % repK P = 0) (hTab : TableOK P i st) :
    TableOK P (i + 1) (putEntry P st i) := by
  have hk16 : repK P ≤ 2 ^ 16 := by
    rw [hb]
    exact Nat.pow_le_pow_right (by norm_num) hb16
  have hkpos : 1 ≤ repK P := repK_pos P
  have hc := chksum_le (repK P - 1) st.hash
  have hpows : (2:Nat) ^ 31 + 2 ^ 16 ≤ 2 ^ 32 := by norm_num
  intro idx
  have hput : (putEntry P st i).hasharr idx =
      if idx = Nat.land st.hash (repHashMask P)
      then (i + chksum (repK P - 1) st.hash) % 2 ^ 32 else st.hasharr idx := rfl
  rw [hput]
  by_cases hidx : idx = Nat.land st.hash (repHashMask P)
  · rw [if_pos hidx]
    right
    have hmod : (i + chksum (repK P - 1) st.hash) % 2 ^ 32
        = i + chksum (repK P - 1) st.hash := Nat.mod_eq_of_lt (by omega)
    rw [hmod]
    exact ⟨i, chksum (repK P - 1) st.hash, rfl, hik, by omega, by omega⟩
  · rw [if_neg hidx]
    rcases hTab idx with h0 | ⟨ip, c, h1, h2, h3, h4⟩
    · exact Or.inl h0
    · exact Or.inr ⟨ip, c, h1, h2, h3, by omega⟩

theorem insertStep_tab (P : RepParams) (st : EncSt) (i b : Nat)
    (hb : repK P = 2 ^ b) (hb16 : b ≤ 16) (hi31 : i < 2 ^ 31)
    (hTab : TableOK P i st) :
    TableOK P (i + 1) (insertStep P st i) := by
  rcases insertStep_spec P st i with ⟨heq, _⟩ | ⟨heq, hg⟩
  · rw [heq]
    exact TableOK_mono P i (i + 1) st (by omega) hTab
  · rw [heq]
    have hik : i % repK P = 0 := by
      rw [hb] at hg ⊢
      rwa [land_two_pow_sub_one] at hg
    exact putEntry_tab P st i b hb hb16 hi31 hik hTab

theorem innerStep_noemit (P : RepParams) (bs : Nat) (st : EncSt) (i b : Nat)
    (hb : repK P = 2 ^ b) (hb16 : b ≤ 16)
    (hBS : P.BlockSize ≤ 2 ^ 31) (hbsB : bs ≤ P.BlockSize) (hibs : i < bs)
    (hPS : P.SmallestLen ≤ P.MinMatchLen)
    (hnd : BufNoDup P.SmallestLen bs st.buf)
    (hTab : TableOK P i st) :
    (innerStep P bs st i).buf = st.buf ∧
    (innerStep P bs st i).mtrace = st.mtrace ∧
    (innerStep P bs st i).lens = st.lens ∧
    (innerStep P bs st i).offsets = st.offsets ∧
    (innerStep P bs st i).datalens = st.datalens ∧
    (innerStep P bs st i).dataOffsets = st.dataOffsets ∧
    (innerStep P bs st i).literals = st.literals ∧
    (innerStep P bs st i).last_match = st.last_match ∧
    (innerStep P bs st i).Base = st.Base ∧
    (innerStep P bs st i).last_i = st.last_i ∧
    (innerStep P bs st i).out = st.out ∧
    (innerStep P bs st i).blocks = st.blocks ∧
    TableOK P (i + 1) (innerStep P bs st i) := by
  have hpe : probeStep P bs st i = st :=
    probeStep_noemit P bs st i b hb hb16 hBS hbsB hibs hPS hnd hTab
  have hdef : innerStep P bs st i = hashStep P (insertStep P st i) i := by
    rw [innerStep_def, hpe]
  obtain ⟨if1, if2, if3, if4, if5, if6, if7, if8, if9, if10, if11, if12, if13⟩ :=
    insertStep_fields P st i
  obtain ⟨hg1, hg2, hg3, hg4, hg5, hg6, hg7, hg8, hg9, hg10, hg11, hg12, hg13, hg14⟩ :=
    hashStep_fields P (insertStep P st i) i
  have htab2 := insertStep_tab P st i b hb hb16 (by omega) hTab
  rw [hdef]
  refine ⟨hg1.trans if1, hg12.trans if12, hg6.trans if6, hg7.trans if7,
          hg8.trans if8, hg9.trans if9, hg10.trans if10, hg5.trans if5,
          hg3.trans if3, hg4.trans if4, hg11.trans if11, hg13.trans if13, ?_⟩
  intro idx
  rw [hg2]
  exact htab2 idx
theorem innerLoop_noemit (P : RepParams) (bs b : Nat)
    (hb : repK P = 2 ^ b) (hb16 : b ≤ 16)
    (hBS : P.BlockSize ≤ 2 ^ 31) (hbsB : bs ≤ P.BlockSize)
    (hPS : P.SmallestLen ≤ P.MinMatchLen) :
    ∀ j st i, i + j ≤ bs → BufNoDup P.SmallestLen bs st.buf → TableOK P i st →
      (innerLoop P bs j st i).1.buf = st.buf ∧
      (innerLoop P bs j st i).1.mtrace = st.mtrace ∧
      (innerLoop P bs j st i).1.lens = st.lens ∧
      (innerLoop P bs j st i).1.offsets = st.offsets ∧
      (innerLoop P bs j st i).1.datalens = st.datalens ∧
      (innerLoop P bs j st i).1.dataOffsets = st.dataOffsets ∧
      (innerLoop P bs j st i).1.literals = st.literals ∧
      (innerLoop P bs j st i).1.last_match = st.last_match ∧
      (innerLoop P bs j st i).1.Base = st.Base ∧
      (innerLoop P bs j st i).1.last_i = st.last_i ∧
      (innerLoop P bs j st i).1.out = st.out ∧
      (innerLoop P bs j st i).1.blocks = st.blocks ∧
      TableOK P (i + j) (innerLoop P bs j st i).1 := by
  intro j
  induction j with
  | zero =>
      intro st i _ _ hTab
      exact ⟨rfl, rfl, rfl, rfl, rfl, rfl, rfl, rfl, rfl, rfl, rfl, rfl, hTab⟩
  | succ j ih =>
      intro st i hle hnd hTab
      obtain ⟨e1, e2, e3, e4, e5, e6, e7, e8, e9, e10, e11, e12, htab1⟩ :=
        innerStep_noemit P bs st i b hb hb16 hBS hbsB (by omega) hPS hnd hTab
      have hnd1 : BufNoDup P.SmallestLen bs (innerStep P bs st i).buf := by
        rw [e1]
        exact hnd
      obtain ⟨f1, f2, f3, f4, f5, f6, f7, f8, f9, f10, f11, f12, htab2⟩ :=
        ih (innerStep P bs st i) (i + 1) (by omega) hnd1 htab1
      have hbnd : i + 1 + j = i + (j + 1) := by omega
      rw [hbnd] at htab2
      exact ⟨f1.trans e1, f2.trans e2, f3.trans e3, f4.trans e4, f5.trans e5,
             f6.trans e6, f7.trans e7, f8.trans e8, f9.trans e9, f10.trans e10,
             f11.trans e11, f12.trans e12, htab2⟩

theorem skipHashes_hasharr (P : RepParams) :
    ∀ j st i, (skipHashes P j st i).1.hasharr = st.hasharr := by
  intro j
  induction j with
  | zero => intro st i; rfl
  | succ j ih =>
      intro st i
      exact ih
        { st with hash := update_hash (repCPL P) st.hash (st.buf i) (st.buf (i + repL P)) }
        (i + 1)

theorem skipLoop_tab (P : RepParams) (b : Nat)
    (hb : repK P = 2 ^ b) (hb16 : b ≤ 16) :
    ∀ fuel st i M,
      repK P ∣ i → repL P ∣ M → i ≤ M → M ≤ 2 ^ 31 →
      TableOK P i st →
      TableOK P (skipLoop P fuel st i).2 (skipLoop P fuel st i).1 := by
  intro fuel
  induction fuel with
  | zero => intro st i M _ _ _ _ hTab; exact hTab
  | succ fuel ih =>
      intro st i M hki hLM hiM hM31 hTab
      by_cases hc : Nat.land i (repL P - 1) ≠ 0
      · have hstep : skipLoop P (fuel + 1) st i =
            skipLoop P fuel (skipHashes P (repK P) (putEntry P st i) i).1
              (skipHashes P (repK P) (putEntry P st i) i).2 := by
          simp only [skipLoop]
          rw [if_pos hc]
        obtain ⟨a, b2, hL, hk2, hba⟩ := repLK_structure P
        have hiltM : i < M := by
          rcases Nat.lt_or_ge i M with h | h
          · exact h
          · exfalso
            have hieq : i = M := by omega
            apply hc
            rw [hL, land_two_pow_sub_one, hieq]
            obtain ⟨c, hc2⟩ := hLM
            rw [hc2, hL, Nat.mul_mod_right]
        have hik0 : i % repK P = 0 := by
          obtain ⟨c, hc2⟩ := hki
          rw [hc2, Nat.mul_mod_right]
        have htabP := putEntry_tab P st i b hb hb16 (by omega) hik0 hTab
        obtain ⟨hsh2, hf1, hf2, hf3, hf4, hf5, hf6, hf7, hf8, hf9, hf10, hf11, hf12, hf13⟩ :=
          skipHashes_spec P (repK P) (putEntry P st i) i
        have hkM : repK P ∣ M := dvd_trans (repK_dvd_repL P) hLM
        have hik : repK P ∣ i + repK P := Dvd.dvd.add hki (dvd_refl _)
        have hikM : i + repK P ≤ M := by
          have hd : repK P ∣ M - i := Nat.dvd_sub' hkM hki
          have : repK P ≤ M - i := Nat.le_of_dvd (by omega) hd
          omega
        have hkpos : 1 ≤ repK P := repK_pos P
        have htabS : TableOK P (skipHashes P (repK P) (putEntry P st i) i).2
            (skipHashes P (repK P) (putEntry P st i) i).1 := by
          rw [hsh2]
          exact TableOK_congr P (i + repK P) _ (putEntry P st i)
            (skipHashes_hasharr P (repK P) (putEntry P st i) i)
            (TableOK_mono P (i + 1) (i + repK P) _ (by omega) htabP)
        rw [hstep]
        exact ih (skipHashes P (repK P) (putEntry P st i) i).1
          (skipHashes P (repK P) (putEntry P st i) i).2 M
          (by rw [hsh2]; exact hik) hLM (by rw [hsh2]; exact hikM) hM31
          (by rw [hsh2] at htabS ⊢; exact htabS)
      · have hstep : skipLoop P (fuel + 1) st i = (st, i) := by
          simp only [skipLoop]
          rw [if_neg hc]
        rw [hstep]
        exact hTab

theorem outerLoop_noemit (P : RepParams) (bs b : Nat)
    (hb : repK P = 2 ^ b) (hb16 : b ≤ 16)
    (hBS : P.BlockSize ≤ 2 ^ 31) (hbsB : bs ≤ P.BlockSize)
    (hPS : P.SmallestLen ≤ P.MinMatchLen) :
    ∀ fuel st, repK P ∣ st.last_i → TableOK P st.last_i st →
      BufNoDup P.SmallestLen bs st.buf →
      (outerLoop P bs fuel st).buf = st.buf ∧
      (outerLoop P bs fuel st).mtrace = st.mtrace ∧
      (outerLoop P bs fuel st).lens = st.lens ∧
      (outerLoop P bs fuel st).offsets = st.offsets ∧
      (outerLoop P bs fuel st).datalens = st.datalens ∧
      (outerLoop P bs fuel st).dataOffsets = st.dataOffsets ∧
      (outerLoop P bs fuel st).literals = st.literals ∧
      (outerLoop P bs fuel st).last_match = st.last_match ∧
      (outerLoop P bs fuel st).Base = st.Base ∧
      (outerLoop P bs fuel st).out = st.out ∧
      (outerLoop P bs fuel st).blocks = st.blocks ∧
      (outerLoop P bs fuel st).last_i ≤ max st.last_i bs := by
  intro fuel
  induction fuel with
  | zero =>
      intro st _ _ _
      exact ⟨rfl, rfl, rfl, rfl, rfl, rfl, rfl, rfl, rfl, rfl, rfl, le_max_left _ _⟩
  | succ fuel ih =>
      intro st hk hTab hnd
      by_cases hc : st.last_i + repL P * 2 < bs
      · have hstep : outerLoop P bs (fuel + 1) st =
            outerLoop P bs fuel
              { (skipLoop P (repL P)
                  (innerLoop P bs (repTest P) st st.last_i).1
                  (innerLoop P bs (repTest P) st st.last_i).2).1 with
                last_i := (skipLoop P (repL P)
                  (innerLoop P bs (repTest P) st st.last_i).1
                  (innerLoop P bs (repTest P) st st.last_i).2).2 } := by
          simp only [outerLoop]
          rw [if_pos hc]
        have hLpos : 1 ≤ repL P := repL_pos P
        have htest : repTest P ≤ repL P := repTest_le_repL P
        obtain ⟨n1, n2, n3, n4, n5, n6, n7, n8, n9, n10, n11, n12, htabI⟩ :=
          innerLoop_noemit P bs b hb hb16 hBS hbsB hPS (repTest P) st st.last_i
            (by omega) hnd hTab
        have hsnd : (innerLoop P bs (repTest P) st st.last_i).2 = st.last_i + repTest P :=
          innerLoop_snd P bs (repTest P) st st.last_i
        have hki1 : repK P ∣ st.last_i + repTest P := Dvd.dvd.add hk (repK_dvd_repTest P)
        have hmlt : (st.last_i + repTest P) % repL P < repL P := Nat.mod_lt _ (by omega)
        have hdm := Nat.div_add_mod (st.last_i + repTest P) (repL P)
        have hMlt : st.last_i + repTest P <
            ((st.last_i + repTest P) / repL P + 1) * repL P := by
          calc st.last_i + repTest P
              = repL P * ((st.last_i + repTest P) / repL P)
                + (st.last_i + repTest P) % repL P := hdm.symm
            _ < repL P * ((st.last_i + repTest P) / repL P) + repL P :=
                Nat.add_lt_add_left hmlt _
            _ = ((st.last_i + repTest P) / repL P + 1) * repL P := by ring
        have hMub : ((st.last_i + repTest P) / repL P + 1) * repL P
            ≤ st.last_i + repTest P + repL P := by
          rw [Nat.add_one_mul]
          exact Nat.add_le_add_right (Nat.div_mul_le_self _ _) _
        obtain ⟨M, hMdvd, hMge, hMle⟩ :
            ∃ M, repL P ∣ M ∧ st.last_i + repTest P ≤ M ∧
              M ≤ st.last_i + repTest P + repL P :=
          ⟨((st.last_i + repTest P) / repL P + 1) * repL P,
           ⟨(st.last_i + repTest P) / repL P + 1, by ring⟩, le_of_lt hMlt, hMub⟩
        have hMbs : M ≤ bs := by omega
        obtain ⟨⟨s1, s2⟩, s3, s4⟩ := skipLoop_inv P (repL P)
          (innerLoop P bs (repTest P) st st.last_i).1
          (innerLoop P bs (repTest P) st st.last_i).2
          M
          (by rw [hsnd]; exact hki1)
          hMdvd
          (by rw [hsnd]; exact hMge)
        obtain ⟨sf1, sf2, sf3, sf4, sf5, sf6, sf7, sf8, sf9, sf10, sf11, sf12⟩ := s4
        have htabS := skipLoop_tab P b hb hb16 (repL P)
          (innerLoop P bs (repTest P) st st.last_i).1
          (innerLoop P bs (repTest P) st st.last_i).2
          M
          (by rw [hsnd]; exact hki1)
          hMdvd
          (by rw [hsnd]; exact hMge)
          (by omega)
          (by rw [hsnd]; exact htabI)
        have hbufeq : ({ (skipLoop P (repL P)
                (innerLoop P bs (repTest P) st st.last_i).1
                (innerLoop P bs (repTest P) st st.last_i).2).1 with
              last_i := (skipLoop P (repL P)
                (innerLoop P bs (repTest P) st st.last_i).1
                (innerLoop P bs (repTest P) st st.last_i).2).2 } : EncSt).buf
            = st.buf := sf1.trans n1
        have hnd2 : BufNoDup P.SmallestLen bs
            ({ (skipLoop P (repL P)
                (innerLoop P bs (repTest P) st st.last_i).1
                (innerLoop P bs (repTest P) st st.last_i).2).1 with
              last_i := (skipLoop P (repL P)
                (innerLoop P bs (repTest P) st st.last_i).1
                (innerLoop P bs (repTest P) st st.last_i).2).2 } : EncSt).buf := by
          rw [hbufeq]
          exact hnd
        obtain ⟨o1, o2, o3, o4, o5, o6, o7, o8, o9, o10, o11, o12⟩ :=
          ih { (skipLoop P (repL P)
                (innerLoop P bs (repTest P) st st.last_i).1
                (innerLoop P bs (repTest P) st st.last_i).2).1 with
              last_i := (skipLoop P (repL P)
                (innerLoop P bs (repTest P) st st.last_i).1
                (innerLoop P bs (repTest P) st st.last_i).2).2 }
            s1 htabS hnd2
        rw [hstep]
        refine ⟨o1.trans (sf1.trans n1), o2.trans (sf11.trans n2),
                o3.trans (sf5.trans n3), o4.trans (sf6.trans n4),
                o5.trans (sf7.trans n5), o6.trans (sf8.trans n6),
                o7.trans (sf9.trans n7), o8.trans (sf4.trans n8),
                o9.trans (sf2.trans n9), o10.trans (sf10.trans n11),
                o11.trans (sf12.trans n12), ?_⟩
        have hlastle : (outerLoop P bs fuel
            { (skipLoop P (repL P)
                (innerLoop P bs (repTest P) st st.last_i).1
                (innerLoop P bs (repTest P) st st.last_i).2).1 with
              last_i := (skipLoop P (repL P)
                (innerLoop P bs (repTest P) st st.last_i).1
                (innerLoop P bs (repTest P) st st.last_i).2).2 }).last_i
            ≤ max (skipLoop P (repL P)
                (innerLoop P bs (repTest P) st st.last_i).1
                (innerLoop P bs (repTest P) st st.last_i).2).2 bs := o12
        have hsM : (skipLoop P (repL P)
            (innerLoop P bs (repTest P) st st.last_i).1
            (innerLoop P bs (repTest P) st st.last_i).2).2 ≤ M := s2
        omega
      · have hstep : outerLoop P bs (fuel + 1) st = st := by
          simp only [outerLoop]
          rw [if_neg hc]
        rw [hstep]
        exact ⟨rfl, rfl, rfl, rfl, rfl, rfl, rfl, rfl, rfl, rfl, rfl, le_max_left _ _⟩
/-! ### Pointwise characterisations of the cycle phases (claim C9) -/

theorem scanRead_buf_at (P : RepParams) (X : List Nat) (c : Nat) (FT : Bool)
    (st : EncSt) (Size t : Nat) (ht : st.Base ≤ t ∧ t < st.Base + Size) :
    (scanRead P X c FT st Size).buf t = X.getD (c + (t - st.Base)) 0 := by
  have hb : (scanRead P X c FT st Size).buf =
      fun u => if st.Base ≤ u ∧ u < st.Base + Size
               then X.getD (c + (u - st.Base)) 0 else st.buf u := by
    unfold scanRead
    split_ifs <;> rfl
  rw [hb]
  exact if_pos ht

theorem scanRead_buf_frame (P : RepParams) (X : List Nat) (c : Nat) (FT : Bool)
    (st : EncSt) (Size t : Nat) (ht : ¬ (st.Base ≤ t ∧ t < st.Base + Size)) :
    (scanRead P X c FT st Size).buf t = st.buf t := by
  have hb : (scanRead P X c FT st Size).buf =
      fun u => if st.Base ≤ u ∧ u < st.Base + Size
               then X.getD (c + (u - st.Base)) 0 else st.buf u := by
    unfold scanRead
    split_ifs <;> rfl
  rw [hb]
  exact if_neg ht

theorem scanRead_hasharr (P : RepParams) (X : List Nat) (c : Nat) (FT : Bool)
    (st : EncSt) (Size : Nat) :
    (scanRead P X c FT st Size).hasharr = st.hasharr := by
  unfold scanRead
  split_ifs <;> rfl

theorem scanRead_out_true (P : RepParams) (X : List Nat) (c : Nat)
    (st : EncSt) (Size : Nat) :
    (scanRead P X c true st Size).out = st.out ++ le32 P.BlockSize := rfl

theorem scanRead_out_false (P : RepParams) (X : List Nat) (c : Nat)
    (st : EncSt) (Size : Nat) :
    (scanRead P X c false st Size).out = st.out := rfl

theorem scanInit_more (P : RepParams) (st : EncSt) (Size : Nat) :
    (scanInit P st Size).buf = st.buf ∧
    (scanInit P st Size).out = st.out ∧
    (scanInit P st Size).hasharr = st.hasharr := by
  unfold scanInit
  split_ifs <;> exact ⟨rfl, rfl, rfl⟩

theorem scanPost_more (P : RepParams) (st : EncSt) (Size : Nat)
    (h : ¬ (st.Base + Size = P.BlockSize)) :
    (scanPost P st Size).buf = st.buf ∧
    (scanPost P st Size).out = st.out ∧
    (scanPost P st Size).last_i = st.last_i ∧
    (scanPost P st Size).last_match = st.last_match ∧
    (scanPost P st Size).Base = st.Base + Size ∧
    (scanPost P st Size).lens = st.lens ∧
    (scanPost P st Size).offsets = st.offsets ∧
    (scanPost P st Size).datalens = st.datalens ∧
    (scanPost P st Size).dataOffsets = st.dataOffsets ∧
    (scanPost P st Size).literals = st.literals ∧
    (scanPost P st Size).mtrace = st.mtrace ∧
    (scanPost P st Size).blocks = st.blocks := by
  simp only [scanPost]
  rw [if_neg h]
  exact ⟨rfl, rfl, rfl, rfl, rfl, rfl, rfl, rfl, rfl, rfl, rfl, rfl⟩

theorem encCycleEmit_nomatch (P : RepParams) (lm0 : Nat) (st : EncSt)
    (h1 : st.last_match ≤ st.last_i) (h2 : ¬ (st.Base = P.BlockSize)) :
    (encCycleEmit P lm0 st).out =
      st.out ++ (le32 (4 * 2 + 4 * st.lens.length + 4 * st.offsets.length
        + 4 * (st.datalens ++ [st.last_i - st.last_match]).length
        + (st.literals + (st.last_i - st.last_match)) - 4)
      ++ le32 st.lens.length
      ++ st.lens.flatMap le32 ++ st.offsets.flatMap le32
      ++ (st.datalens ++ [st.last_i - st.last_match]).flatMap le32
      ++ literalBytes st.buf (st.dataOffsets ++ [st.last_match])
          (st.datalens ++ [st.last_i - st.last_match])) ∧
    (encCycleEmit P lm0 st).blocks = st.blocks ++
      [⟨lm0, st.lens, st.offsets, st.datalens ++ [st.last_i - st.last_match],
        st.dataOffsets ++ [st.last_match]⟩] ∧
    (encCycleEmit P lm0 st).Base = st.Base ∧
    (encCycleEmit P lm0 st).last_match = st.last_i ∧
    (encCycleEmit P lm0 st).last_i = st.last_i ∧
    (encCycleEmit P lm0 st).buf = st.buf := by
  simp only [encCycleEmit]
  rw [if_neg (by omega : ¬ st.last_i < st.last_match), if_neg h2]
  exact ⟨rfl, rfl, rfl, rfl, rfl, rfl⟩

theorem repFinale_out (st : EncSt) :
    (repFinale st).out = st.out ++ le32 (4 * 2 + (st.Base - st.last_match)) ++ le32 0
      ++ le32 (st.Base - st.last_match)
      ++ bufSlice st.buf st.last_match (st.Base - st.last_match) ++ le32 0 := rfl

theorem repFinale_blocks (st : EncSt) : (repFinale st).blocks = st.blocks := rfl

theorem bufSlice_take_drop (X : List Nat) (buf : Nat → Nat) (off len : Nat)
    (h : off + len ≤ X.length)
    (hbuf : ∀ t, t < X.length → buf t = X.getD t 0) :
    bufSlice buf off len = (X.drop off).take len := by
  apply List.ext_getElem
  · simp [bufSlice]
    omega
  · intro i h1 h2
    simp only [bufSlice, List.getElem_map, List.getElem_range]
    have hlen : i < len := by
      simpa [bufSlice] using h1
    rw [hbuf (off + i) (by omega)]
    rw [List.getElem_take, List.getElem_drop]
    exact List.getD_eq_getElem X 0 (by omega)
theorem scanSize_true (P : RepParams) (X : List Nat) (c base : Nat) :
    scanSize P X c true base = min (min (P.BlockSize - base) MAX_READ) (X.length - c) := by
  unfold scanSize
  simp

theorem scanSize_false (P : RepParams) (X : List Nat) (c base : Nat) :
    scanSize P X c false base
      = min (min (P.BlockSize - base) (min (P.BlockSize / 8) MAX_READ)) (X.length - c) := by
  unfold scanSize
  simp

theorem scanInit_literals (P : RepParams) (st : EncSt) (Size : Nat) :
    (scanInit P st Size).literals = 0 := by
  unfold scanInit
  split_ifs <;> rfl

/-- Claim C9 (amended): for every nonempty input shorter than the block
size (and within one read) in which no duplication of length
`≥ smallest_len` exists, `rep_compress` emits exactly one non-terminal
block, that block contains zero matches (`num = 0`), and the stream is
the prologue word, that block (one `datalen` covering the scanned
literals), the terminator block carrying the remaining tail, and the EOF
sentinel word `0`. -/
theorem C9_single_block (P : RepParams) (X : List Nat)
    (hne : 1 ≤ X.length) (hlt : X.length < P.BlockSize) (hmr : X.length ≤ MAX_READ)
    (hS1 : 1 ≤ P.SmallestLen) (hPS : P.SmallestLen ≤ P.MinMatchLen)
    (hBS : P.BlockSize ≤ 2 ^ 31) (hS32 : P.SmallestLen ≤ 2 ^ 32)
    (hnd : NoDup X P.SmallestLen) :
    (rep_compress P X).blocks.length = 1 ∧
    (∀ b ∈ (rep_compress P X).blocks, b.lens = []) ∧
    ∃ li, li ≤ X.length ∧
      (rep_compress P X).out =
        le32 P.BlockSize ++ le32 (8 + li) ++ le32 0 ++ le32 li ++ X.take li
        ++ le32 (8 + (X.length - li)) ++ le32 0 ++ le32 (X.length - li)
        ++ X.drop li ++ le32 0 := by
  -- parameter structure: k = 2 ^ b with b ≤ 16, and the clamp is trivial
  have hcl : clampP P = P := by
    unfold clampP
    rw [if_neg (by omega)]
  obtain ⟨a, hL⟩ := repL_pow2 P
  have hk : repK P = 2 ^ ((a + 1) / 2) := by
    unfold repK
    rw [hL, ← pow_succ, sqrtb_two_pow]
  have hS2' : P.SmallestLen / 2 ≤ 2 ^ 31 := by
    have h2 : (2 : Nat) ^ 32 = 2 ^ 31 * 2 := by norm_num
    omega
  have hLle : repL P ≤ 2 ^ 31 := roundup_le_pow _ 31 hS2'
  have ha : a ≤ 31 := by
    rw [hL] at hLle
    exact (Nat.pow_le_pow_iff_right (by norm_num)).1 hLle
  have hb16 : (a + 1) / 2 ≤ 16 := by omega
  -- the first cycle reads the whole input
  have hS0 : scanSize P X 0 true encInit.Base = X.length := by
    rw [scanSize_true]
    have hz : encInit.Base = 0 := rfl
    omega
  obtain ⟨r1, r2, r3, r4, r5, r6⟩ := scanRead_fields P X 0 true encInit X.length
  obtain ⟨i1, i2, i3, i4, i5, i6, i7, i8, i9, i10⟩ :=
    scanInit_fields P (scanRead P X 0 true encInit X.length) X.length
  obtain ⟨m1, m2, m3⟩ := scanInit_more P (scanRead P X 0 true encInit X.length) X.length
  have hb4 : (scanInit P (scanRead P X 0 true encInit X.length) X.length).Base = 0 :=
    i1.trans (r1.trans rfl)
  have E1 : encCycleScan P X 0 true encInit =
      (scanPost P (outerLoop P X.length (X.length + 1)
        (scanInit P (scanRead P X 0 true encInit X.length) X.length)) X.length,
       X.length) := by
    simp only [encCycleScan]
    rw [hS0]
    rw [if_neg (by omega : ¬ X.length = 0)]
    rw [hb4, Nat.zero_add]
  -- window bytes and buffer-level no-duplication
  have hbuf1 : ∀ t, t < X.length →
      (scanInit P (scanRead P X 0 true encInit X.length) X.length).buf t
        = X.getD t 0 := by
    intro t ht
    rw [m1]
    have hz : encInit.Base = 0 := rfl
    have h := scanRead_buf_at P X 0 true encInit X.length t
      ⟨Nat.zero_le _, by show t < 0 + X.length; omega⟩
    rw [hz] at h
    simpa using h
  have hnd1 : BufNoDup P.SmallestLen X.length
      (scanInit P (scanRead P X 0 true encInit X.length) X.length).buf := by
    intro p q hpq hqS
    obtain ⟨j, hj, hne2⟩ := hnd q (by omega) p hpq (by omega)
    refine ⟨j, hj, ?_⟩
    rw [hbuf1 (p + j) (by omega), hbuf1 (q + j) (by omega)]
    exact hne2
  have hli4 : (scanInit P (scanRead P X 0 true encInit X.length) X.length).last_i = 0 :=
    i2.trans (r2.trans rfl)
  have hlm4 : (scanInit P (scanRead P X 0 true encInit X.length) X.length).last_match = 0 :=
    i3.trans (r3.trans rfl)
  have htab0 : TableOK P
      (scanInit P (scanRead P X 0 true encInit X.length) X.length).last_i
      (scanInit P (scanRead P X 0 true encInit X.length) X.length) := by
    intro idx
    left
    rw [m3, scanRead_hasharr]
    rfl
  obtain ⟨o1, o2, o3, o4, o5, o6, o7, o8, o9, o10, o11, o12⟩ :=
    outerLoop_noemit P X.length ((a + 1) / 2) hk hb16 hBS (by omega) hPS
      (X.length + 1)
      (scanInit P (scanRead P X 0 true encInit X.length) X.length)
      (by rw [hli4]; exact dvd_zero _)
      htab0
      hnd1
  have hln : (outerLoop P X.length (X.length + 1)
      (scanInit P (scanRead P X 0 true encInit X.length) X.length)).last_i
      ≤ X.length := by
    rw [hli4] at o12
    omega
  have h5B : (outerLoop P X.length (X.length + 1)
      (scanInit P (scanRead P X 0 true encInit X.length) X.length)).Base = 0 :=
    o9.trans hb4
  obtain ⟨p1, p2, p3, p4, p5, p6, p7, p8, p9, p10, p11, p12⟩ :=
    scanPost_more P (outerLoop P X.length (X.length + 1)
      (scanInit P (scanRead P X 0 true encInit X.length) X.length)) X.length
      (by rw [h5B]; omega)
  -- the fields of the state entering the emission phase
  have h6lens : (scanPost P (outerLoop P X.length (X.length + 1)
      (scanInit P (scanRead P X 0 true encInit X.length) X.length)) X.length).lens
      = [] := p6.trans (o3.trans i7)
  have h6offs : (scanPost P (outerLoop P X.length (X.length + 1)
      (scanInit P (scanRead P X 0 true encInit X.length) X.length)) X.length).offsets
      = [] := p7.trans (o4.trans i8)
  have h6dls : (scanPost P (outerLoop P X.length (X.length + 1)
      (scanInit P (scanRead P X 0 true encInit X.length) X.length)) X.length).datalens
      = [] := p8.trans (o5.trans i9)
  have h6dos : (scanPost P (outerLoop P X.length (X.length + 1)
      (scanInit P (scanRead P X 0 true encInit X.length) X.length)) X.length).dataOffsets
      = [] := p9.trans (o6.trans i10)
  have h6lit : (scanPost P (outerLoop P X.length (X.length + 1)
      (scanInit P (scanRead P X 0 true encInit X.length) X.length)) X.length).literals
      = 0 := p10.trans (o7.trans (scanInit_literals P _ _))
  have h6lm : (scanPost P (outerLoop P X.length (X.length + 1)
      (scanInit P (scanRead P X 0 true encInit X.length) X.length)) X.length).last_match
      = 0 := p4.trans (o8.trans hlm4)
  have h6B : (scanPost P (outerLoop P X.length (X.length + 1)
      (scanInit P (scanRead P X 0 true encInit X.length) X.length)) X.length).Base
      = 0 + X.length := by
    rw [p5, h5B]
  have h6blocks : (scanPost P (outerLoop P X.length (X.length + 1)
      (scanInit P (scanRead P X 0 true encInit X.length) X.length)) X.length).blocks
      = [] := p12.trans (o11.trans (i6.trans (r6.trans rfl)))
  have h6out : (scanPost P (outerLoop P X.length (X.length + 1)
      (scanInit P (scanRead P X 0 true encInit X.length) X.length)) X.length).out
      = le32 P.BlockSize := by
    rw [p2, o10, m2, scanRead_out_true]
    rfl
  have h6buf : ∀ t, t < X.length →
      (scanPost P (outerLoop P X.length (X.length + 1)
        (scanInit P (scanRead P X 0 true encInit X.length) X.length)) X.length).buf t
      = X.getD t 0 := by
    intro t ht
    rw [p1, o1]
    exact hbuf1 t ht
  obtain ⟨e1, e2, e3, e4, e5, e6⟩ := encCycleEmit_nomatch P encInit.last_match
    (scanPost P (outerLoop P X.length (X.length + 1)
      (scanInit P (scanRead P X 0 true encInit X.length) X.length)) X.length)
    (by rw [h6lm]; exact Nat.zero_le _)
    (by rw [h6B]; omega)
  have E2 : encCycle P X 0 true encInit =
      (encCycleEmit P encInit.last_match
        (scanPost P (outerLoop P X.length (X.length + 1)
          (scanInit P (scanRead P X 0 true encInit X.length) X.length)) X.length),
       X.length) := by
    simp only [encCycle]
    rw [E1]
    rw [if_neg (by omega : ¬ X.length = 0)]
  have EM : mainLoop P X (X.length + 2) 0 true encInit =
      mainLoop P X (X.length + 1) (0 + X.length) false
        (encCycleEmit P encInit.last_match
          (scanPost P (outerLoop P X.length (X.length + 1)
            (scanInit P (scanRead P X 0 true encInit X.length) X.length)) X.length)) := by
    have h2 : X.length + 2 = (X.length + 1) + 1 := rfl
    rw [h2, mainLoop_succ, E2]
    rw [if_neg (by omega : ¬ X.length = 0)]
  -- the second cycle reads nothing and the loop exits
  have hS2c : scanSize P X (0 + X.length) false
      (encCycleEmit P encInit.last_match
        (scanPost P (outerLoop P X.length (X.length + 1)
          (scanInit P (scanRead P X 0 true encInit X.length) X.length)) X.length)).Base
      = 0 := by
    rw [scanSize_false]
    omega
  have EM2 : mainLoop P X (X.length + 1) (0 + X.length) false
      (encCycleEmit P encInit.last_match
        (scanPost P (outerLoop P X.length (X.length + 1)
          (scanInit P (scanRead P X 0 true encInit X.length) X.length)) X.length))
      = scanRead P X (0 + X.length) false
        (encCycleEmit P encInit.last_match
          (scanPost P (outerLoop P X.length (X.length + 1)
            (scanInit P (scanRead P X 0 true encInit X.length) X.length)) X.length)) 0 := by
    rw [mainLoop_succ]
    have E3 : encCycleScan P X (0 + X.length) false
        (encCycleEmit P encInit.last_match
          (scanPost P (outerLoop P X.length (X.length + 1)
            (scanInit P (scanRead P X 0 true encInit X.length) X.length)) X.length))
        = (scanRead P X (0 + X.length) false
            (encCycleEmit P encInit.last_match
              (scanPost P (outerLoop P X.length (X.length + 1)
                (scanInit P (scanRead P X 0 true encInit X.length) X.length)) X.length)) 0,
           0) := by
      simp only [encCycleScan]
      rw [hS2c]
      rw [if_pos rfl]
    have E4 : encCycle P X (0 + X.length) false
        (encCycleEmit P encInit.last_match
          (scanPost P (outerLoop P X.length (X.length + 1)
            (scanInit P (scanRead P X 0 true encInit X.length) X.length)) X.length))
        = (scanRead P X (0 + X.length) false
            (encCycleEmit P encInit.last_match
              (scanPost P (outerLoop P X.length (X.length + 1)
                (scanInit P (scanRead P X 0 true encInit X.length) X.length)) X.length)) 0,
           0) := by
      simp only [encCycle]
      rw [E3]
      rw [if_pos rfl]
    rw [E4]
    rw [if_pos rfl]
  have hrc : rep_compress P X = repFinale (scanRead P X (0 + X.length) false
      (encCycleEmit P encInit.last_match
        (scanPost P (outerLoop P X.length (X.length + 1)
          (scanInit P (scanRead P X 0 true encInit X.length) X.length)) X.length)) 0) := by
    show repFinale (mainLoop (clampP P) X (X.length + 2) 0 true encInit) = _
    rw [hcl, EM, EM2]
  -- fields of the final state
  obtain ⟨f1, f2, f3, f4, f5, f6⟩ := scanRead_fields P X (0 + X.length) false
    (encCycleEmit P encInit.last_match
      (scanPost P (outerLoop P X.length (X.length + 1)
        (scanInit P (scanRead P X 0 true encInit X.length) X.length)) X.length)) 0
  have hFblocks : (rep_compress P X).blocks =
      [⟨encInit.last_match, [], [],
        [] ++ [(outerLoop P X.length (X.length + 1)
          (scanInit P (scanRead P X 0 true encInit X.length) X.length)).last_i - 0],
        [] ++ [0]⟩] := by
    rw [hrc, repFinale_blocks, f6, e2, h6blocks]
    rw [h6lens, h6offs, h6dls, h6dos, h6lm, p3]
    rfl
  refine ⟨by rw [hFblocks]; rfl, by rw [hFblocks]; intro b hb; simp at hb; rw [hb], ?_⟩
  refine ⟨(outerLoop P X.length (X.length + 1)
    (scanInit P (scanRead P X 0 true encInit X.length) X.length)).last_i, hln, ?_⟩
  -- the final byte stream
  have hFbuf : ∀ t, t < X.length →
      (scanRead P X (0 + X.length) false
        (encCycleEmit P encInit.last_match
          (scanPost P (outerLoop P X.length (X.length + 1)
            (scanInit P (scanRead P X 0 true encInit X.length) X.length)) X.length)) 0).buf t
      = X.getD t 0 := by
    intro t ht
    rw [scanRead_buf_frame P X (0 + X.length) false _ 0 t (by omega)]
    rw [e6]
    exact h6buf t ht
  have hsl1 : bufSlice (scanPost P (outerLoop P X.length (X.length + 1)
      (scanInit P (scanRead P X 0 true encInit X.length) X.length)) X.length).buf 0
      ((outerLoop P X.length (X.length + 1)
        (scanInit P (scanRead P X 0 true encInit X.length) X.length)).last_i - 0)
      = X.take ((outerLoop P X.length (X.length + 1)
          (scanInit P (scanRead P X 0 true encInit X.length) X.length)).last_i) := by
    rw [bufSlice_take_drop X _ 0 _ (by omega) h6buf]
    rw [List.drop_zero]
    simp
  have hsl2 : bufSlice (scanRead P X (0 + X.length) false
      (encCycleEmit P encInit.last_match
        (scanPost P (outerLoop P X.length (X.length + 1)
          (scanInit P (scanRead P X 0 true encInit X.length) X.length)) X.length)) 0).buf
      ((outerLoop P X.length (X.length + 1)
        (scanInit P (scanRead P X 0 true encInit X.length) X.length)).last_i)
      (0 + X.length - (outerLoop P X.length (X.length + 1)
        (scanInit P (scanRead P X 0 true encInit X.length) X.length)).last_i)
      = X.drop ((outerLoop P X.length (X.length + 1)
          (scanInit P (scanRead P X 0 true encInit X.length) X.length)).last_i) := by
    rw [bufSlice_take_drop X _ _ _ (by omega) hFbuf]
    rw [show 0 + X.length - (outerLoop P X.length (X.length + 1)
        (scanInit P (scanRead P X 0 true encInit X.length) X.length)).last_i
      = (X.drop ((outerLoop P X.length (X.length + 1)
          (scanInit P (scanRead P X 0 true encInit X.length) X.length)).last_i)).length
      from by simp]
    exact List.take_length _
  rw [hrc, repFinale_out, scanRead_out_false, e1]
  rw [f1, e3, h6B, f3, e4, p3]
  rw [h6lens, h6offs, h6dls, h6dos, h6lit, h6lm, h6out]
  rw [hsl2]
  simp only [List.nil_append, List.length_nil, List.length_cons, Nat.sub_zero,
    List.flatMap_nil, List.flatMap_cons, List.append_nil]
  rw [show literalBytes (scanPost P (outerLoop P X.length (X.length + 1)
      (scanInit P (scanRead P X 0 true encInit X.length) X.length)) X.length).buf
      [0] [(outerLoop P X.length (X.length + 1)
        (scanInit P (scanRead P X 0 true encInit X.length) X.length)).last_i]
      = bufSlice (scanPost P (outerLoop P X.length (X.length + 1)
          (scanInit P (scanRead P X 0 true encInit X.length) X.length)) X.length).buf 0
          ((outerLoop P X.length (X.length + 1)
            (scanInit P (scanRead P X 0 true encInit X.length) X.length)).last_i)
        ++ [] from rfl]
  rw [List.append_nil]
  rw [show ((outerLoop P X.length (X.length + 1)
      (scanInit P (scanRead P X 0 true encInit X.length) X.length)).last_i - 0)
    = (outerLoop P X.length (X.length + 1)
      (scanInit P (scanRead P X 0 true encInit X.length) X.length)).last_i from by omega] at hsl1
  rw [hsl1]
  rw [show 4 * 2 + 4 * 0 + 4 * 0 + 4 * (0 + 1) + (0 + (outerLoop P X.length (X.length + 1)
      (scanInit P (scanRead P X 0 true encInit X.length) X.length)).last_i) - 4
    = 8 + (outerLoop P X.length (X.length + 1)
        (scanInit P (scanRead P X 0 true encInit X.length) X.length)).last_i from by omega]
  rw [show 4 * 2 + (0 + X.length - (outerLoop P X.length (X.length + 1)
      (scanInit P (scanRead P X 0 true encInit X.length) X.length)).last_i)
    = 8 + (X.length - (outerLoop P X.length (X.length + 1)
        (scanInit P (scanRead P X 0 true encInit X.length) X.length)).last_i) from by omega]
  rw [show 0 + X.length - (outerLoop P X.length (X.length + 1)
      (scanInit P (scanRead P X 0 true encInit X.length) X.length)).last_i
    = X.length - (outerLoop P X.length (X.length + 1)
        (scanInit P (scanRead P X 0 true encInit X.length) X.length)).last_i from by omega]
  simp [List.append_assoc]
/-- Counterexample for claim C9 as stated: the empty input has length
`0 < 64` and vacuously contains no duplication, yet `rep_compress` emits
zero non-terminal blocks, not one (the first read returns `0` bytes and
the main loop exits before ever emitting a block). -/
theorem C9_counterexample :
    (0 : Nat) < 64 ∧ NoDup ([] : List Nat) 2 ∧
    (rep_compress ⟨64, 0, 2, 1024, 2, 4, 1⟩ ([] : List Nat)).blocks.length ≠ 1 := by
  refine ⟨by decide, by decide, by decide⟩

/-- Witness for C9 (amended) on the duplication-free input `[1, 2, 3]`. -/
theorem C9_witness :
    ((1 : Nat) ≤ ([1, 2, 3] : List Nat).length ∧
     ([1, 2, 3] : List Nat).length < (⟨64, 0, 2, 1024, 2, 4, 1⟩ : RepParams).BlockSize ∧
     ([1, 2, 3] : List Nat).length ≤ MAX_READ ∧
     NoDup [1, 2, 3] 2) ∧
    ((rep_compress ⟨64, 0, 2, 1024, 2, 4, 1⟩ [1, 2, 3]).blocks.length = 1 ∧
     (∀ b ∈ (rep_compress ⟨64, 0, 2, 1024, 2, 4, 1⟩ [1, 2, 3]).blocks, b.lens = []) ∧
     ∃ li, li ≤ ([1, 2, 3] : List Nat).length ∧
       (rep_compress ⟨64, 0, 2, 1024, 2, 4, 1⟩ [1, 2, 3]).out =
         le32 (⟨64, 0, 2, 1024, 2, 4, 1⟩ : RepParams).BlockSize ++ le32 (8 + li)
         ++ le32 0 ++ le32 li ++ ([1, 2, 3] : List Nat).take li
         ++ le32 (8 + (([1, 2, 3] : List Nat).length - li)) ++ le32 0
         ++ le32 (([1, 2, 3] : List Nat).length - li)
         ++ ([1, 2, 3] : List Nat).drop li ++ le32 0) :=
  ⟨⟨by decide, by decide, by decide, by decide⟩,
   C9_single_block ⟨64, 0, 2, 1024, 2, 4, 1⟩ [1, 2, 3]
     (by decide) (by decide) (by decide) (by decide) (by decide)
     (by decide) (by decide) (by decide)⟩
